import Mathlib

/-!
Shallow embedding of the wire protocol of iracing-teleport (src/protocol.rs):
the fragmenting `Sender`, the reassembling `Receiver`, and theorems settling
the specification claims about them.

Bytes are modelled as natural numbers; every byte extracted from the wire is
reduced modulo 256, matching the `u8` view the Rust code takes of a datagram.
Machine integers (`u16`, `u32`, `u64`) are modelled as `Nat` with explicit
`% 2^w` at the points where the Rust code casts or wraps.  A Rust panic
(out-of-bounds slice index) is modelled by returning `none` from the function
that would panic.
-/

/-- Maximum UDP datagram size (src/protocol.rs line 4). -/
def MAX_DATAGRAM_SIZE : Nat := 9000

/-- Size in bytes of the packed `DatagramHeader` (4 + 2 + 2 + 4 + 8). -/
def headerSize : Nat := 20

/-- Maximum payload bytes per datagram (src/protocol.rs line 7). -/
def MAX_PAYLOAD_SIZE : Nat := MAX_DATAGRAM_SIZE - headerSize

/-- The 20-byte datagram header (src/protocol.rs lines 9-16).  Field widths:
`sequence` u32, `fragment` u16, `fragments` u16, `payload_size` u32,
`source_time_us` u64. -/
structure DatagramHeader where
  sequence : Nat
  fragment : Nat
  fragments : Nat
  payload_size : Nat
  source_time_us : Nat
deriving DecidableEq

/-- Little-endian encoding of `v` into `w` bytes (the packed in-memory
representation of an unsigned integer field). -/
def leBytes : Nat → Nat → List Nat
  | 0, _ => []
  | w + 1, v => v % 256 :: leBytes w (v / 256)

/-- Little-endian value of a byte list; each entry is reduced mod 256 the way
the Rust code views raw memory as `u8`s. -/
def leVal : List Nat → Nat
  | [] => 0
  | b :: bs => b % 256 + 256 * leVal bs

/-- Read a `w`-byte little-endian field at byte offset `off` of a datagram. -/
def readLE (data : List Nat) (off w : Nat) : Nat :=
  leVal ((data.drop off).take w)

/-- The byte image of a header as written by `Sender::send` (the packed struct
copied byte-for-byte into the scratch buffer, little-endian field layout). -/
def serializeHeader (h : DatagramHeader) : List Nat :=
  leBytes 4 h.sequence ++ leBytes 2 h.fragment ++ leBytes 2 h.fragments ++
    leBytes 4 h.payload_size ++ leBytes 8 h.source_time_us

/-- Header parsing as done by `Receiver::process_datagram` (the pointer cast at
src/protocol.rs line 127): reinterpret the first 20 bytes as the packed
struct. -/
def parseHeader (data : List Nat) : DatagramHeader :=
  { sequence := readLE data 0 4
    fragment := readLE data 4 2
    fragments := readLE data 6 2
    payload_size := readLE data 8 4
    source_time_us := readLE data 12 8 }

theorem leBytes_length (w v : Nat) : (leBytes w v).length = w := by
  induction w generalizing v with
  | zero => rfl
  | succ w ih => simp [leBytes, ih]

theorem leVal_leBytes (w v : Nat) : leVal (leBytes w v) = v % 256 ^ w := by
  induction w generalizing v with
  | zero => simp [leBytes, leVal, Nat.mod_one]
  | succ w ih =>
    have hp : (256 : Nat) ^ (w + 1) = 256 * 256 ^ w := by ring
    rw [hp, Nat.mod_mul]
    simp [leBytes, leVal, ih, Nat.mod_mod_of_dvd v dvd_rfl]

theorem leVal_take_append (A X : List Nat) (w : Nat) (hw : A.length = w) :
    leVal ((A ++ X).take w) = leVal A := by
  subst hw
  rw [List.take_left]

theorem serializeHeader_length (h : DatagramHeader) :
    (serializeHeader h).length = headerSize := by
  simp [serializeHeader, leBytes_length, headerSize]

/-- Parsing the serialized header recovers the fields modulo their widths. -/
theorem parseHeader_serializeHeader (h : DatagramHeader) (rest : List Nat) :
    parseHeader (serializeHeader h ++ rest) =
      { sequence := h.sequence % 2 ^ 32
        fragment := h.fragment % 2 ^ 16
        fragments := h.fragments % 2 ^ 16
        payload_size := h.payload_size % 2 ^ 32
        source_time_us := h.source_time_us % 2 ^ 64 } := by
  have e4 : (2 : Nat) ^ 32 = 256 ^ 4 := by norm_num
  have e2 : (2 : Nat) ^ 16 = 256 ^ 2 := by norm_num
  have e8 : (2 : Nat) ^ 64 = 256 ^ 8 := by norm_num
  set A := leBytes 4 h.sequence with hA
  set B := leBytes 2 h.fragment with hB
  set C := leBytes 2 h.fragments with hC
  set E := leBytes 4 h.payload_size with hE
  set F := leBytes 8 h.source_time_us with hF
  have lA : A.length = 4 := leBytes_length 4 _
  have lB : B.length = 2 := leBytes_length 2 _
  have lC : C.length = 2 := leBytes_length 2 _
  have lE : E.length = 4 := leBytes_length 4 _
  have data_eq : serializeHeader h ++ rest = A ++ (B ++ (C ++ (E ++ (F ++ rest)))) := by
    simp [serializeHeader, ← hA, ← hB, ← hC, ← hE, ← hF, List.append_assoc]
  have d4 : (serializeHeader h ++ rest).drop 4 = B ++ (C ++ (E ++ (F ++ rest))) := by
    rw [data_eq, ← lA, List.drop_left]
  have d6 : (serializeHeader h ++ rest).drop 6 = C ++ (E ++ (F ++ rest)) := by
    have h6 : (6 : Nat) = 4 + 2 := rfl
    rw [h6, ← List.drop_drop, d4, ← lB, List.drop_left]
  have d8 : (serializeHeader h ++ rest).drop 8 = E ++ (F ++ rest) := by
    have h8 : (8 : Nat) = 6 + 2 := rfl
    rw [h8, ← List.drop_drop, d6, ← lC, List.drop_left]
  have d12 : (serializeHeader h ++ rest).drop 12 = F ++ rest := by
    have h12 : (12 : Nat) = 8 + 4 := rfl
    rw [h12, ← List.drop_drop, d8, ← lE, List.drop_left]
  have r0 : readLE (serializeHeader h ++ rest) 0 4 = h.sequence % 256 ^ 4 := by
    rw [readLE, List.drop_zero, data_eq, leVal_take_append A _ 4 lA, hA, leVal_leBytes]
  have r4 : readLE (serializeHeader h ++ rest) 4 2 = h.fragment % 256 ^ 2 := by
    rw [readLE, d4, leVal_take_append B _ 2 lB, hB, leVal_leBytes]
  have r6 : readLE (serializeHeader h ++ rest) 6 2 = h.fragments % 256 ^ 2 := by
    rw [readLE, d6, leVal_take_append C _ 2 lC, hC, leVal_leBytes]
  have r8 : readLE (serializeHeader h ++ rest) 8 4 = h.payload_size % 256 ^ 4 := by
    rw [readLE, d8, leVal_take_append E _ 4 lE, hE, leVal_leBytes]
  have r12 : readLE (serializeHeader h ++ rest) 12 8 = h.source_time_us % 256 ^ 8 := by
    rw [readLE, d12, leVal_take_append F _ 8 (leBytes_length 8 _), hF, leVal_leBytes]
  rw [parseHeader]
  rw [r0, r4, r6, r8, r12, e4, e2, e8]

/-! ## Sender (src/protocol.rs lines 18-86) -/

/-- Abstract `io::Error`: the kinds the protocol code can produce or
propagate. -/
inductive IOErr where
  | invalidData
  | other (code : Nat)
deriving DecidableEq

/-- Sender state: the wrapping `u32` sequence number.  The scratch buffer is
not modelled: only the emitted prefix of it is ever observable. -/
structure Sender where
  sequence : Nat
deriving DecidableEq

/-- A fresh sender (src/protocol.rs lines 24-29). -/
def Sender.new : Sender := ⟨0⟩

/-- Rust `usize::div_ceil` for a positive divisor. -/
def divCeil (a b : Nat) : Nat := (a + b - 1) / b

/-- The fragment-emission loop of `Sender::send` (src/protocol.rs lines 56-80).
`emit` is the sink, indexed by invocation ordinal so stateful sinks are
covered; `i` is the loop index, `offset` the running data offset, `count` the
number of fragments still to send.  Returns the loop outcome together with the
list of datagrams actually handed to `emit`, in order. -/
def sendFrags (emit : Nat → List Nat → Except IOErr Unit) (data : List Nat)
    (seq time n : Nat) : Nat → Nat → Nat → Except IOErr Unit × List (List Nat)
  | _, _, 0 => (.ok (), [])
  | i, offset, count + 1 =>
    let fragment_size := min (data.length - offset) MAX_PAYLOAD_SIZE
    let dgram := serializeHeader ⟨seq, i, n, data.length, time⟩ ++
      ((data.drop offset).take fragment_size)
    match emit i dgram with
    | .error e => (.error e, [dgram])
    | .ok () =>
      let rest := sendFrags emit data seq time n (i + 1) (offset + fragment_size) count
      (rest.1, dgram :: rest.2)

/-- `Sender::send` (src/protocol.rs lines 31-85).  Result, next sender state,
and the trace of datagrams handed to `emit`. -/
def Sender.send (s : Sender) (data : List Nat) (source_time_us : Nat)
    (emit : Nat → List Nat → Except IOErr Unit) :
    Except IOErr Nat × Sender × List (List Nat) :=
  let fragments := divCeil data.length MAX_PAYLOAD_SIZE
  if fragments > 65535 then
    (.error .invalidData, s, [])
  else
    match sendFrags emit data s.sequence source_time_us fragments 0 0 fragments with
    | (.error e, trace) => (.error e, s, trace)
    | (.ok (), trace) => (.ok fragments, ⟨(s.sequence + 1) % 2 ^ 32⟩, trace)

/-- An always-succeeding sink. -/
def emitOk : Nat → List Nat → Except IOErr Unit := fun _ _ => .ok ()

/-- The datagrams of one successful `send` of `data` with timestamp `t` from a
fresh `Sender` (sequence 0). -/
def sentDatagrams (data : List Nat) (t : Nat) : List (List Nat) :=
  (Sender.new.send data t emitOk).2.2

/-- The payload chunk of fragment `j`. -/
def chunk (data : List Nat) (j : Nat) : List Nat :=
  (data.drop (j * MAX_PAYLOAD_SIZE)).take MAX_PAYLOAD_SIZE

/-- The ideal datagram of fragment `j` of a fresh-sender send. -/
def dgram (data : List Nat) (t n j : Nat) : List Nat :=
  serializeHeader ⟨0, j, n, data.length, t⟩ ++ chunk data j

theorem divCeil_le_iff (a b k : Nat) (hb : 0 < b) :
    divCeil a b ≤ k ↔ a ≤ k * b := by
  unfold divCeil
  rw [Nat.div_le_iff_le_mul_add_pred hb, Nat.mul_comm]
  omega

theorem le_divCeil_mul (a b : Nat) (hb : 0 < b) : a ≤ divCeil a b * b :=
  (divCeil_le_iff a b (divCeil a b) hb).mp le_rfl

theorem divCeil_pos (a b : Nat) (hb : 0 < b) (ha : 0 < a) : 0 < divCeil a b := by
  unfold divCeil
  exact (Nat.le_div_iff_mul_le hb).mpr (by omega)

theorem divCeil_pred_lt (a b : Nat) (hb : 0 < b) (ha : 0 < a) :
    (divCeil a b - 1) * b < a := by
  by_contra hcon
  push_neg at hcon
  have h1 := (divCeil_le_iff a b (divCeil a b - 1) hb).mpr hcon
  have h2 := divCeil_pos a b hb ha
  omega


/-- The ideal datagram of fragment `j` of a send with sequence `seq`. -/
def dgramAt (data : List Nat) (seq t n j : Nat) : List Nat :=
  serializeHeader ⟨seq, j, n, data.length, t⟩ ++ chunk data j

theorem dgram_eq_dgramAt (data : List Nat) (t n j : Nat) :
    dgram data t n j = dgramAt data 0 t n j := rfl

theorem take_min_length {α : Type} (l : List α) (k : Nat) :
    l.take (min l.length k) = l.take k := by
  rcases le_total l.length k with h | h
  · rw [min_eq_left h, List.take_length, List.take_of_length_le h]
  · rw [min_eq_right h]

theorem chunk_take (data : List Nat) (off : Nat) :
    (data.drop off).take (min (data.length - off) MAX_PAYLOAD_SIZE) =
      (data.drop off).take MAX_PAYLOAD_SIZE := by
  rw [← List.length_drop]
  exact take_min_length _ _

theorem MPS_pos : 0 < MAX_PAYLOAD_SIZE := by
  norm_num [MAX_PAYLOAD_SIZE, MAX_DATAGRAM_SIZE, headerSize]

theorem divCeil_zero_left (b : Nat) (hb : 0 < b) : divCeil 0 b = 0 := by
  unfold divCeil
  exact Nat.div_eq_of_lt (by omega)

/-- One unfolding of the emission loop. -/
theorem sendFrags_succ (emit : Nat → List Nat → Except IOErr Unit) (data : List Nat)
    (seq t n i offset count : Nat) :
    sendFrags emit data seq t n i offset (count + 1) =
      match emit i (serializeHeader ⟨seq, i, n, data.length, t⟩ ++
          ((data.drop offset).take (min (data.length - offset) MAX_PAYLOAD_SIZE))) with
      | .error e => (.error e,
          [serializeHeader ⟨seq, i, n, data.length, t⟩ ++
            ((data.drop offset).take (min (data.length - offset) MAX_PAYLOAD_SIZE))])
      | .ok () =>
        ((sendFrags emit data seq t n (i + 1)
            (offset + min (data.length - offset) MAX_PAYLOAD_SIZE) count).1,
          (serializeHeader ⟨seq, i, n, data.length, t⟩ ++
            ((data.drop offset).take (min (data.length - offset) MAX_PAYLOAD_SIZE))) ::
          (sendFrags emit data seq t n (i + 1)
            (offset + min (data.length - offset) MAX_PAYLOAD_SIZE) count).2) := rfl

/-- With an always-succeeding sink, the loop starting at fragment `i` with
offset `i * MAX_PAYLOAD_SIZE` emits exactly the ideal datagrams `i`, `i+1`,
…, `n-1`. -/
theorem sendFrags_emitOk (data : List Nat) (seq t n : Nat)
    (hn : n = divCeil data.length MAX_PAYLOAD_SIZE) :
    ∀ count i, i + count = n →
      sendFrags emitOk data seq t n i (i * MAX_PAYLOAD_SIZE) count =
        (.ok (), (List.range' i count).map (dgramAt data seq t n)) := by
  intro count
  induction count with
  | zero =>
    intro i hi
    simp [sendFrags]
  | succ c ih =>
    intro i hi
    have hchunk : (data.drop (i * MAX_PAYLOAD_SIZE)).take
        (min (data.length - i * MAX_PAYLOAD_SIZE) MAX_PAYLOAD_SIZE) = chunk data i := by
      rw [chunk]
      exact chunk_take data _
    cases c with
    | zero =>
      rw [sendFrags_succ]
      simp only [emitOk, hchunk]
      simp [sendFrags, dgramAt, List.range'_one]
    | succ c2 =>
      have hlen0 : 0 < data.length := by
        by_contra h0
        push_neg at h0
        have hz : data.length = 0 := by omega
        rw [hz, divCeil_zero_left _ MPS_pos] at hn
        omega
      have hfull : MAX_PAYLOAD_SIZE ≤ data.length - i * MAX_PAYLOAD_SIZE := by
        have h1 : (i + 1) * MAX_PAYLOAD_SIZE ≤ (n - 1) * MAX_PAYLOAD_SIZE :=
          Nat.mul_le_mul_right _ (by omega)
        have h2 : (n - 1) * MAX_PAYLOAD_SIZE < data.length := by
          rw [hn]
          exact divCeil_pred_lt _ _ MPS_pos hlen0
        have hsm : (i + 1) * MAX_PAYLOAD_SIZE = i * MAX_PAYLOAD_SIZE + MAX_PAYLOAD_SIZE := by
          ring
        omega
      have hmin : min (data.length - i * MAX_PAYLOAD_SIZE) MAX_PAYLOAD_SIZE =
          MAX_PAYLOAD_SIZE := min_eq_right hfull
      have hoff : i * MAX_PAYLOAD_SIZE + MAX_PAYLOAD_SIZE = (i + 1) * MAX_PAYLOAD_SIZE := by
        ring
      rw [sendFrags_succ]
      simp only [emitOk, hmin, hoff]
      rw [ih (i + 1) (by omega)]
      simp [dgramAt, chunk, List.range'_succ]

/-- A successful send from sender `s` emits exactly the ideal datagrams
`0 … n-1` with sequence field `s.sequence`, returns `Ok n`, and advances the
sequence with wrap. -/
theorem send_emitOk (s : Sender) (data : List Nat) (t : Nat)
    (hsize : divCeil data.length MAX_PAYLOAD_SIZE ≤ 65535) :
    s.send data t emitOk =
      (.ok (divCeil data.length MAX_PAYLOAD_SIZE), ⟨(s.sequence + 1) % 2 ^ 32⟩,
        (List.range (divCeil data.length MAX_PAYLOAD_SIZE)).map
          (dgramAt data s.sequence t (divCeil data.length MAX_PAYLOAD_SIZE))) := by
  have h0 := sendFrags_emitOk data s.sequence t (divCeil data.length MAX_PAYLOAD_SIZE) rfl
    (divCeil data.length MAX_PAYLOAD_SIZE) 0 (by omega)
  rw [Nat.zero_mul] at h0
  unfold Sender.send
  rw [if_neg (by omega), h0, List.range_eq_range']

theorem parse_dgramAt (data : List Nat) (seq t n j : Nat) :
    parseHeader (dgramAt data seq t n j) =
      { sequence := seq % 2 ^ 32, fragment := j % 2 ^ 16, fragments := n % 2 ^ 16,
        payload_size := data.length % 2 ^ 32, source_time_us := t % 2 ^ 64 } :=
  parseHeader_serializeHeader ⟨seq, j, n, data.length, t⟩ (chunk data j)

theorem sentDatagrams_eq (data : List Nat) (t : Nat)
    (hsize : divCeil data.length MAX_PAYLOAD_SIZE ≤ 65535) :
    sentDatagrams data t = (List.range (divCeil data.length MAX_PAYLOAD_SIZE)).map
      (dgram data t (divCeil data.length MAX_PAYLOAD_SIZE)) := by
  unfold sentDatagrams
  rw [send_emitOk Sender.new data t hsize]
  rfl

/-- C7: a buffer needing more than 65535 fragments is rejected with
`InvalidData`, `emit` is never invoked, and the sender state (in particular
its `sequence` field) is unchanged. -/
theorem C7_oversized_rejection (s : Sender) (data : List Nat) (t : Nat)
    (emit : Nat → List Nat → Except IOErr Unit)
    (hover : 65535 < divCeil data.length MAX_PAYLOAD_SIZE) :
    s.send data t emit = (.error .invalidData, s, []) := by
  unfold Sender.send
  rw [if_pos (by omega)]

/-- C7 witness: a concrete oversized buffer is rejected. -/
theorem C7_oversized_rejection_witness :
    65535 < divCeil (List.replicate 588554301 (0 : Nat)).length MAX_PAYLOAD_SIZE ∧
    Sender.new.send (List.replicate 588554301 (0 : Nat)) 3 emitOk =
      (.error .invalidData, Sender.new, []) := by
  have hl : (List.replicate 588554301 (0 : Nat)).length = 588554301 :=
    List.length_replicate _ _
  constructor
  · rw [hl]
    decide
  · exact C7_oversized_rejection Sender.new _ 3 emitOk (by rw [hl]; decide)

/-- C10: sending the empty buffer returns `Ok(0)`, never invokes `emit`, and
still advances the sequence number by one modulo `2^32`. -/
theorem C10_empty_send (s : Sender) (t : Nat)
    (emit : Nat → List Nat → Except IOErr Unit) :
    s.send [] t emit = (.ok 0, ⟨(s.sequence + 1) % 2 ^ 32⟩, []) := by
  have h0 : divCeil ([] : List Nat).length MAX_PAYLOAD_SIZE = 0 := by
    rw [List.length_nil]
    exact divCeil_zero_left _ MPS_pos
  unfold Sender.send
  rw [h0]
  simp [sendFrags]

/-- The emission loop when `emit` succeeds on indices below `k` and fails at
`k`: it stops at the failing datagram with its trace ending there. -/
theorem sendFrags_fail (emit : Nat → List Nat → Except IOErr Unit) (data : List Nat)
    (seq t n : Nat) (hn : n = divCeil data.length MAX_PAYLOAD_SIZE) (k : Nat) (e : IOErr)
    (hok : ∀ j, j < k → emit j (dgramAt data seq t n j) = .ok ())
    (herr : emit k (dgramAt data seq t n k) = .error e) :
    ∀ count i, i + count = n → i ≤ k → k < n →
      sendFrags emit data seq t n i (i * MAX_PAYLOAD_SIZE) count =
        (.error e, (List.range' i (k - i + 1)).map (dgramAt data seq t n)) := by
  intro count
  induction count with
  | zero =>
    intro i hi hik hkn
    omega
  | succ c ih =>
    intro i hi hik hkn
    have hchunk : (data.drop (i * MAX_PAYLOAD_SIZE)).take
        (min (data.length - i * MAX_PAYLOAD_SIZE) MAX_PAYLOAD_SIZE) = chunk data i := by
      rw [chunk]
      exact chunk_take data _
    have hdg : serializeHeader ⟨seq, i, n, data.length, t⟩ ++
        ((data.drop (i * MAX_PAYLOAD_SIZE)).take
          (min (data.length - i * MAX_PAYLOAD_SIZE) MAX_PAYLOAD_SIZE)) =
        dgramAt data seq t n i := by
      rw [hchunk, dgramAt]
    rcases Nat.lt_or_ge i k with hlt | hge
    · have hlen0 : 0 < data.length := by
        by_contra h0
        push_neg at h0
        have hz : data.length = 0 := by omega
        rw [hz, divCeil_zero_left _ MPS_pos] at hn
        omega
      have hfull : MAX_PAYLOAD_SIZE ≤ data.length - i * MAX_PAYLOAD_SIZE := by
        have h1 : (i + 1) * MAX_PAYLOAD_SIZE ≤ (n - 1) * MAX_PAYLOAD_SIZE :=
          Nat.mul_le_mul_right _ (by omega)
        have h2 : (n - 1) * MAX_PAYLOAD_SIZE < data.length := by
          rw [hn]
          exact divCeil_pred_lt _ _ MPS_pos hlen0
        have hsm : (i + 1) * MAX_PAYLOAD_SIZE = i * MAX_PAYLOAD_SIZE + MAX_PAYLOAD_SIZE := by
          ring
        omega
      have hmin : min (data.length - i * MAX_PAYLOAD_SIZE) MAX_PAYLOAD_SIZE =
          MAX_PAYLOAD_SIZE := min_eq_right hfull
      have hoff : i * MAX_PAYLOAD_SIZE + MAX_PAYLOAD_SIZE = (i + 1) * MAX_PAYLOAD_SIZE := by
        ring
      rw [sendFrags_succ, hdg, hok i hlt]
      simp only [hmin, hoff]
      rw [ih (i + 1) (by omega) (by omega) hkn]
      have hrange : List.range' i (k - i + 1) = i :: List.range' (i + 1) (k - (i + 1) + 1) := by
        rw [show k - i + 1 = (k - (i + 1) + 1) + 1 from by omega]
        rw [List.range'_succ]
      rw [hrange, List.map_cons]
    · have hik2 : i = k := by omega
      subst hik2
      rw [sendFrags_succ, hdg, herr]
      have h1 : i - i + 1 = 1 := by omega
      rw [h1, List.range'_one]
      simp [dgramAt]

/-- C8: if `emit` succeeds on the first `k` datagrams and fails on datagram
`k+1` (index `k`), `send` returns that error verbatim, invokes `emit` on
exactly the first `k+1` ideal datagrams (none after the failing one), and
leaves the sender state unchanged. -/
theorem C8_emit_failure (s : Sender) (data : List Nat) (t : Nat)
    (emit : Nat → List Nat → Except IOErr Unit) (k : Nat) (e : IOErr)
    (hsize : divCeil data.length MAX_PAYLOAD_SIZE ≤ 65535)
    (hk : k < divCeil data.length MAX_PAYLOAD_SIZE)
    (hok : ∀ j, j < k →
      emit j (dgramAt data s.sequence t (divCeil data.length MAX_PAYLOAD_SIZE) j) = .ok ())
    (herr : emit k (dgramAt data s.sequence t (divCeil data.length MAX_PAYLOAD_SIZE) k) =
      .error e) :
    s.send data t emit = (.error e, s,
      (List.range (k + 1)).map (dgramAt data s.sequence t
        (divCeil data.length MAX_PAYLOAD_SIZE))) := by
  have h0 := sendFrags_fail emit data s.sequence t
    (divCeil data.length MAX_PAYLOAD_SIZE) rfl k e hok herr
    (divCeil data.length MAX_PAYLOAD_SIZE) 0 (by omega) (by omega) hk
  rw [Nat.zero_mul] at h0
  unfold Sender.send
  rw [if_neg (by omega), h0, List.range_eq_range']
  have h1 : k - 0 + 1 = k + 1 := by omega
  rw [h1]

/-- C8 witness: a sink that fails immediately makes `send` return that error
after exactly one emission, leaving the sender untouched. -/
theorem C8_emit_failure_witness :
    (Sender.mk 5).send [1, 2, 3] 4 (fun _ _ => .error (.other 7)) =
      (.error (.other 7), ⟨5⟩,
        (List.range 1).map (dgramAt [1, 2, 3] 5 4 1)) := by
  have h := C8_emit_failure ⟨5⟩ [1, 2, 3] 4 (fun _ _ => .error (.other 7)) 0 (.other 7)
    (by decide) (by decide) (fun j hj => absurd hj (by omega)) rfl
  have hd : divCeil ([1, 2, 3] : List Nat).length MAX_PAYLOAD_SIZE = 1 := by decide
  rw [hd] at h
  exact h

/-- Repeated sends on the same sender with an always-succeeding sink: the
final sender state and the per-send traces. -/
def sendAll (s : Sender) : List (List Nat × Nat) → Sender × List (List (List Nat))
  | [] => (s, [])
  | item :: rest =>
    let r := s.send item.1 item.2 emitOk
    let tail := sendAll r.2.1 rest
    (tail.1, r.2.2 :: tail.2)

/-- C9: across `k` successful sends from a sender whose sequence starts at
`s`, every datagram of the `i`-th send (0-based) carries sequence field
`(s + i) mod 2^32`; in particular all datagrams of one send share one
sequence value. -/
theorem C9_sequence_monotonic (s0 : Sender) (items : List (List Nat × Nat))
    (hsz : ∀ p ∈ items, divCeil p.1.length MAX_PAYLOAD_SIZE ≤ 65535)
    (hlt : s0.sequence < 2 ^ 32) :
    ∀ i, i < items.length → ∀ d ∈ (sendAll s0 items).2.getD i [],
      (parseHeader d).sequence = (s0.sequence + i) % 2 ^ 32 := by
  induction items generalizing s0 with
  | nil =>
    intro i hi
    simp at hi
  | cons p rest ih =>
    intro i hi d hd
    rw [sendAll] at hd
    cases i with
    | zero =>
      simp only [List.getD_cons_zero] at hd
      rw [send_emitOk s0 p.1 p.2 (hsz p (List.mem_cons_self p rest))] at hd
      simp only [List.mem_map] at hd
      obtain ⟨j, _, hdj⟩ := hd
      rw [← hdj, parse_dgramAt]
      simp only []
      omega
    | succ i2 =>
      simp only [List.getD_cons_succ] at hd
      have hseq : (s0.send p.1 p.2 emitOk).2.1 = ⟨(s0.sequence + 1) % 2 ^ 32⟩ := by
        rw [send_emitOk s0 p.1 p.2 (hsz p (List.mem_cons_self p rest))]
      rw [hseq] at hd
      have hi2 : i2 < rest.length := by
        simp [List.length_cons] at hi
        omega
      have hr := ih ⟨(s0.sequence + 1) % 2 ^ 32⟩
        (fun q hq => hsz q (List.mem_cons_of_mem p hq))
        (Nat.mod_lt _ (by norm_num)) i2 hi2 d hd
      rw [hr]
      show ((s0.sequence + 1) % 2 ^ 32 + i2) % 2 ^ 32 = _
      rw [Nat.mod_add_mod]
      congr 1
      omega

/-- C9 witness: two one-fragment sends from sequence 7; the datagram of the
second send carries sequence 8. -/
theorem C9_sequence_monotonic_witness :
    (parseHeader [8, 0, 0, 0, 0, 0, 1, 0, 1, 0, 0, 0, 4, 0, 0, 0, 0, 0, 0, 0, 3]).sequence =
      (7 + 1) % 2 ^ 32 := by
  have happ := C9_sequence_monotonic ⟨7⟩ [([2], 4), ([3], 4)] (by decide) (by norm_num)
    1 (by norm_num) [8, 0, 0, 0, 0, 0, 1, 0, 1, 0, 0, 0, 4, 0, 0, 0, 0, 0, 0, 0, 3]
  exact happ (by decide)

/-! ## Receiver (src/protocol.rs lines 88-198) -/

/-- Receiver state (src/protocol.rs lines 88-96).  `fragments` is the
received-fragment bit-set, `buffer` the reassembly buffer. -/
structure Receiver where
  buffer : List Nat
  fragments : List Bool
  current_sequence : Option Nat
  total_fragments : Nat
  received_fragments : Nat
  payload_size : Nat
  last_source_time_us : Nat
deriving DecidableEq

/-- `Receiver::new` (src/protocol.rs lines 99-109).  The argument only sizes
the buffer capacity, which is not observable. -/
def Receiver.new (_max_payload_size : Nat) : Receiver :=
  { buffer := [], fragments := [], current_sequence := none, total_fragments := 0,
    received_fragments := 0, payload_size := 0, last_source_time_us := 0 }

/-- `Receiver::start_new_sequence` (src/protocol.rs lines 184-197). -/
def Receiver.start_new_sequence (r : Receiver) (hd : DatagramHeader) : Receiver :=
  { r with
    current_sequence := some hd.sequence
    total_fragments := hd.fragments
    received_fragments := 0
    payload_size := hd.payload_size
    fragments := List.replicate hd.fragments false
    buffer := List.replicate hd.payload_size 0 }

/-- Rust slice assignment `buf[off .. off+chunk.len()].copy_from_slice
(chunk)`. -/
def writeAt (buf : List Nat) (off : Nat) (segm : List Nat) : List Nat :=
  buf.take off ++ segm ++ buf.drop (off + segm.length)

/-- The tail of `Receiver::process_datagram` after the header checks
(src/protocol.rs lines 149-181): validation, duplicate check, bounds check,
copy, completion check.  Returns `none` where the Rust code would panic: the
unguarded bit-set index `self.fragments[header.fragment]` at lines 155/171,
and the completion slice `&self.buffer[..payload_size]` at line 176. -/
def Receiver.admitFragment (r : Receiver) (hd : DatagramHeader) (data : List Nat)
    (sc : Bool) : Option (Receiver × (Option (List Nat) × Bool)) :=
  if hd.fragments ≤ hd.fragment ∨ hd.fragments = 0 then
    some (r, (none, sc))
  else if hd.fragment < r.fragments.length then
    if r.fragments.getD hd.fragment false then
      some (r, (none, sc))
    else if r.buffer.length <
        hd.fragment * MAX_PAYLOAD_SIZE + (data.length - headerSize) then
      some (r, (none, sc))
    else if (r.received_fragments + 1) % 65536 = r.total_fragments then
      if r.payload_size ≤
          (writeAt r.buffer (hd.fragment * MAX_PAYLOAD_SIZE) (data.drop headerSize)).length then
        some ({ r with
                  buffer := writeAt r.buffer (hd.fragment * MAX_PAYLOAD_SIZE)
                    (data.drop headerSize)
                  fragments := r.fragments.set hd.fragment true
                  received_fragments := (r.received_fragments + 1) % 65536
                  current_sequence := none },
          (some ((writeAt r.buffer (hd.fragment * MAX_PAYLOAD_SIZE)
            (data.drop headerSize)).take r.payload_size), sc))
      else none
    else
      some ({ r with
                buffer := writeAt r.buffer (hd.fragment * MAX_PAYLOAD_SIZE)
                  (data.drop headerSize)
                fragments := r.fragments.set hd.fragment true
                received_fragments := (r.received_fragments + 1) % 65536 },
        (none, sc))
  else none

/-- The `is_different_sequence` test (src/protocol.rs lines 135-138). -/
def Receiver.isDifferentSequence (r : Receiver) (hd : DatagramHeader) : Bool :=
  match r.current_sequence with
  | some c => decide (hd.sequence ≠ c)
  | none => true

/-- The state updates preceding validation (src/protocol.rs lines 129-147):
latch `last_source_time_us` from a fragment-0 header, then restart the
sequence if the header's sequence differs from the current one. -/
def Receiver.preState (r : Receiver) (hd : DatagramHeader) : Receiver :=
  let r1 := if hd.fragment = 0 then
      { r with last_source_time_us := hd.source_time_us }
    else r
  if r1.isDifferentSequence hd then r1.start_new_sequence hd else r1

/-- `Receiver::process_datagram` (src/protocol.rs lines 119-182): length
check, header parse, fragment-0 time latch, sequence-change flag
(`fragment == 0`), conditional sequence restart, then `admitFragment`. -/
def Receiver.process_datagram (r : Receiver) (data : List Nat) :
    Option (Receiver × (Option (List Nat) × Bool)) :=
  if data.length < headerSize then
    some (r, (none, false))
  else
    (r.preState (parseHeader data)).admitFragment (parseHeader data) data
      (decide ((parseHeader data).fragment = 0))

/-- Feed a list of datagrams through the receiver, collecting each call's
result; `none` if any call panics. -/
def runAll (r : Receiver) : List (List Nat) →
    Option (Receiver × List (Option (List Nat) × Bool))
  | [] => some (r, [])
  | d :: ds =>
    match r.process_datagram d with
    | none => none
    | some (r1, out) =>
      match runAll r1 ds with
      | none => none
      | some (r2, outs) => some (r2, out :: outs)

theorem process_datagram_short (r : Receiver) (data : List Nat)
    (hlen : data.length < headerSize) :
    r.process_datagram data = some (r, (none, false)) := by
  rw [Receiver.process_datagram, if_pos hlen]

theorem process_datagram_long (r : Receiver) (data : List Nat)
    (hlen : ¬ data.length < headerSize) :
    r.process_datagram data =
      (r.preState (parseHeader data)).admitFragment (parseHeader data) data
        (decide ((parseHeader data).fragment = 0)) := by
  rw [Receiver.process_datagram, if_neg hlen]

theorem isDifferentSequence_latch (r : Receiver) (hd : DatagramHeader) :
    ({ r with last_source_time_us := hd.source_time_us } : Receiver).isDifferentSequence hd =
      r.isDifferentSequence hd := rfl

theorem preState_same_sequence (r : Receiver) (hd : DatagramHeader) (c : Nat)
    (hc : r.current_sequence = some c) (hs : hd.sequence = c) :
    r.preState hd = if hd.fragment = 0 then
      { r with last_source_time_us := hd.source_time_us } else r := by
  rw [Receiver.preState]
  have h2 : (if hd.fragment = 0 then
      ({ r with last_source_time_us := hd.source_time_us } : Receiver)
    else r).isDifferentSequence hd = false := by
    by_cases hf : hd.fragment = 0 <;>
      simp [hf, isDifferentSequence_latch, Receiver.isDifferentSequence, hc, hs]
  rw [h2]
  simp

theorem preState_of_different (r : Receiver) (hd : DatagramHeader)
    (h : r.isDifferentSequence hd = true) :
    r.preState hd = (if hd.fragment = 0 then
      ({ r with last_source_time_us := hd.source_time_us } : Receiver)
    else r).start_new_sequence hd := by
  rw [Receiver.preState]
  have h2 : (if hd.fragment = 0 then
      ({ r with last_source_time_us := hd.source_time_us } : Receiver)
    else r).isDifferentSequence hd = true := by
    by_cases hf : hd.fragment = 0 <;> simp [hf, isDifferentSequence_latch, h]
  rw [h2]
  simp

/-- C2: the claim of panic-freedom fails — from a fresh receiver, a first
datagram opening a 2-fragment sequence followed by a same-sequence datagram
whose header says `fragments = 5, fragment = 3` reaches the unguarded bit-set
index `self.fragments[3]` on a bit-set of length 2 (src/protocol.rs line 155),
an out-of-bounds panic; the model returns `none` there. -/
theorem C2_panic_on_inflated_fragments :
    runAll (Receiver.new 9000)
      [serializeHeader ⟨0, 0, 2, 2, 0⟩ ++ [9], serializeHeader ⟨0, 3, 5, 0, 0⟩] = none := by
  decide

/-- C3 counterexample: a receiver mid-reassembly of sequence 0 processes an
invalid datagram (`fragment = 5 ≥ fragments = 1`) that carries sequence 1.
The call returns `(None, _)` but the reassembly state has been reset to the
new header, so it is not left unchanged as the claim states. -/
theorem C3_validation_counterexample :
    (Receiver.mk [9, 0] [true, false] (some 0) 2 1 2 0).process_datagram
        (serializeHeader ⟨1, 5, 1, 0, 0⟩) =
      some (Receiver.mk [] [false] (some 1) 1 0 0 0, (none, false)) ∧
    (Receiver.mk [] [false] (some 1) 1 0 0 0).current_sequence ≠
      (Receiver.mk [9, 0] [true, false] (some 0) 2 1 2 0).current_sequence := by
  decide

/-- C3 (amended): with an in-progress reassembly of sequence `s`, an invalid
datagram (`fragment ≥ fragments`, `fragments = 0`, or fewer than 20 bytes) is
dropped with `(None, _)`; the reassembly state is unchanged whenever the
datagram is short or carries sequence `s` (a different-sequence invalid
datagram instead resets the state to its header before being dropped). -/
theorem C3_amended_validation (r : Receiver) (s : Nat)
    (hcur : r.current_sequence = some s) (d : List Nat)
    (hbad : d.length < headerSize ∨ (parseHeader d).fragments = 0 ∨
      (parseHeader d).fragments ≤ (parseHeader d).fragment) :
    ∃ r1 sc, r.process_datagram d = some (r1, (none, sc)) ∧
      ((d.length < headerSize ∨ (parseHeader d).sequence = s) →
        (r1.current_sequence = r.current_sequence ∧
         r1.total_fragments = r.total_fragments ∧
         r1.received_fragments = r.received_fragments ∧
         r1.payload_size = r.payload_size ∧
         r1.fragments = r.fragments ∧
         r1.buffer = r.buffer)) := by
  by_cases hlen : d.length < headerSize
  · refine ⟨r, false, process_datagram_short r d hlen, ?_⟩
    intro _
    exact ⟨rfl, rfl, rfl, rfl, rfl, rfl⟩
  · have hbad2 : (parseHeader d).fragments ≤ (parseHeader d).fragment ∨
        (parseHeader d).fragments = 0 := by tauto
    have hadm : ∀ r2 : Receiver,
        r2.admitFragment (parseHeader d) d (decide ((parseHeader d).fragment = 0)) =
          some (r2, (none, decide ((parseHeader d).fragment = 0))) := by
      intro r2
      rw [Receiver.admitFragment, if_pos hbad2]
    refine ⟨r.preState (parseHeader d), decide ((parseHeader d).fragment = 0), ?_, ?_⟩
    · rw [process_datagram_long r d hlen, hadm]
    · intro hsame
      rcases hsame with h | hseq
      · exact absurd h hlen
      · rw [preState_same_sequence r (parseHeader d) s hcur hseq]
        by_cases hf : (parseHeader d).fragment = 0
        · rw [if_pos hf]
          exact ⟨rfl, rfl, rfl, rfl, rfl, rfl⟩
        · rw [if_neg hf]
          exact ⟨rfl, rfl, rfl, rfl, rfl, rfl⟩

/-- C3 witness: a concrete mid-reassembly receiver and a short datagram. -/
theorem C3_amended_validation_witness :
    ∃ r1 sc, (Receiver.mk [0, 0] [false, false] (some 0) 2 0 2 0).process_datagram [] =
      some (r1, (none, sc)) := by
  obtain ⟨r1, sc, h1, _⟩ := C3_amended_validation
    (Receiver.mk [0, 0] [false, false] (some 0) 2 0 2 0) 0 rfl [] (Or.inl (by decide))
  exact ⟨r1, sc, h1⟩

theorem admitFragment_flag (r : Receiver) (hd : DatagramHeader) (data : List Nat)
    (sc0 : Bool) (r1 : Receiver) (out : Option (List Nat)) (sc : Bool)
    (h : r.admitFragment hd data sc0 = some (r1, (out, sc))) : sc = sc0 := by
  unfold Receiver.admitFragment at h
  repeat' split at h
  all_goals first
    | exact Option.noConfusion h
    | (simp only [Option.some.injEq, Prod.mk.injEq] at h
       exact h.2.2.symm)

/-- C4: a datagram shorter than the 20-byte header yields `(None, false)` with
the receiver untouched; for any longer input, whenever the call returns, the
`sequence_changed` flag equals `(parsed fragment field == 0)`, whatever the
prior state and whatever became of the datagram. -/
theorem C4_sequence_changed_flag (r : Receiver) (d : List Nat) :
    (d.length < headerSize → r.process_datagram d = some (r, (none, false))) ∧
    (headerSize ≤ d.length → ∀ r1 out sc, r.process_datagram d = some (r1, (out, sc)) →
      sc = decide ((parseHeader d).fragment = 0)) := by
  constructor
  · intro hlen
    exact process_datagram_short r d hlen
  · intro hlen r1 out sc hp
    rw [process_datagram_long r d (by omega)] at hp
    exact admitFragment_flag _ _ _ _ _ _ _ hp

/-- C4 witness: a 3-byte datagram is dropped as `(None, false)` on a fresh
receiver. -/
theorem C4_sequence_changed_flag_witness :
    (Receiver.new 9000).process_datagram [1, 2, 3] = some (Receiver.new 9000, (none, false)) :=
  (C4_sequence_changed_flag (Receiver.new 9000) [1, 2, 3]).1 (by decide)

/-! ## Receiver invariant (C6) -/

/-- The receiver's structural invariant: bit-set sized to `total_fragments`,
buffer sized to `payload_size`, `received_fragments` equal to the number of
set bits, and `total_fragments` within `u16` range. -/
def RInv (r : Receiver) : Prop :=
  r.fragments.length = r.total_fragments ∧
  r.buffer.length = r.payload_size ∧
  r.received_fragments = r.fragments.count true ∧
  r.total_fragments < 65536

/-- Receiver states reachable from `Receiver::new` by non-panicking calls. -/
inductive Reachable : Receiver → Prop where
  | base (m : Nat) : Reachable (Receiver.new m)
  | step {r r1 : Receiver} {d : List Nat} {out : Option (List Nat) × Bool} :
      Reachable r → r.process_datagram d = some (r1, out) → Reachable r1

theorem leVal_lt (l : List Nat) : leVal l < 256 ^ l.length := by
  induction l with
  | nil => simp [leVal]
  | cons b bs ih =>
    have hb : b % 256 < 256 := Nat.mod_lt _ (by norm_num)
    simp only [leVal, List.length_cons, pow_succ]
    calc b % 256 + 256 * leVal bs < 256 + 256 * leVal bs := by omega
    _ ≤ 256 * 256 ^ bs.length := by
        have h1 : leVal bs + 1 ≤ 256 ^ bs.length := ih
        calc 256 + 256 * leVal bs = 256 * (leVal bs + 1) := by ring
        _ ≤ 256 * 256 ^ bs.length := Nat.mul_le_mul_left _ h1
    _ = 256 ^ bs.length * 256 := by ring

theorem readLE_lt (data : List Nat) (off w : Nat) : readLE data off w < 256 ^ w := by
  have h1 := leVal_lt ((data.drop off).take w)
  have h2 : ((data.drop off).take w).length ≤ w := by
    simp [List.length_take]
  calc readLE data off w < 256 ^ ((data.drop off).take w).length := h1
  _ ≤ 256 ^ w := Nat.pow_le_pow_right (by norm_num) h2

theorem parse_fragments_lt (d : List Nat) : (parseHeader d).fragments < 65536 := by
  have h := readLE_lt d 6 2
  norm_num at h
  exact h

theorem writeAt_length (buf : List Nat) (off : Nat) (segm : List Nat)
    (h : off + segm.length ≤ buf.length) :
    (writeAt buf off segm).length = buf.length := by
  simp only [writeAt, List.length_append, List.length_take, List.length_drop]
  omega

theorem count_true_set (l : List Bool) (i : Nat) (hi : i < l.length)
    (hf : l.getD i false = false) :
    (l.set i true).count true = l.count true + 1 := by
  induction l generalizing i with
  | nil => simp at hi
  | cons b bs ih =>
    cases i with
    | zero =>
      have hb : b = false := by simpa using hf
      subst hb
      simp [List.count_cons]
    | succ i2 =>
      have hi2 : i2 < bs.length := by simpa using hi
      have hf2 : bs.getD i2 false = false := by simpa using hf
      simp only [List.set, List.count_cons, ih i2 hi2 hf2]
      omega

theorem count_true_lt (l : List Bool) (i : Nat) (hi : i < l.length)
    (hf : l.getD i false = false) :
    l.count true < l.length := by
  induction l generalizing i with
  | nil => simp at hi
  | cons b bs ih =>
    cases i with
    | zero =>
      have hb : b = false := by simpa using hf
      subst hb
      have h1 := List.count_le_length true bs
      simp [List.count_cons]
      omega
    | succ i2 =>
      have hi2 : i2 < bs.length := by simpa using hi
      have hf2 : bs.getD i2 false = false := by simpa using hf
      have h1 := ih i2 hi2 hf2
      simp only [List.count_cons, List.length_cons]
      split <;> omega

theorem start_inv (r : Receiver) (hd : DatagramHeader) (hfrag : hd.fragments < 65536) :
    RInv (r.start_new_sequence hd) := by
  refine ⟨?_, ?_, ?_, hfrag⟩
  · simp [Receiver.start_new_sequence]
  · simp [Receiver.start_new_sequence]
  · simp [Receiver.start_new_sequence, List.count_replicate]

theorem preState_inv (r : Receiver) (hd : DatagramHeader) (hfrag : hd.fragments < 65536)
    (hinv : RInv r) : RInv (r.preState hd) := by
  rw [Receiver.preState]
  split <;> split <;> first
    | exact start_inv _ _ hfrag
    | exact hinv

theorem admitFragment_inv (r : Receiver) (hd : DatagramHeader) (d : List Nat) (sc : Bool)
    (r1 : Receiver) (out : Option (List Nat) × Bool) (hinv : RInv r)
    (h : r.admitFragment hd d sc = some (r1, out)) : RInv r1 := by
  obtain ⟨hlen1, hlen2, hcnt, htot⟩ := hinv
  unfold Receiver.admitFragment at h
  split at h
  case isTrue =>
    simp only [Option.some.injEq, Prod.mk.injEq] at h
    rw [← h.1]
    exact ⟨hlen1, hlen2, hcnt, htot⟩
  case isFalse =>
    split at h
    case isFalse => exact Option.noConfusion h
    case isTrue hidx =>
      split at h
      case isTrue =>
        simp only [Option.some.injEq, Prod.mk.injEq] at h
        rw [← h.1]
        exact ⟨hlen1, hlen2, hcnt, htot⟩
      case isFalse hdup =>
        split at h
        case isTrue =>
          simp only [Option.some.injEq, Prod.mk.injEq] at h
          rw [← h.1]
          exact ⟨hlen1, hlen2, hcnt, htot⟩
        case isFalse hbnd =>
          have hdupf : r.fragments.getD hd.fragment false = false := by
            revert hdup
            cases r.fragments.getD hd.fragment false <;> simp
          have hwlen : (writeAt r.buffer (hd.fragment * MAX_PAYLOAD_SIZE)
              (d.drop headerSize)).length = r.buffer.length := by
            apply writeAt_length
            rw [List.length_drop]
            omega
          have hcount : (r.fragments.set hd.fragment true).count true =
              r.fragments.count true + 1 := count_true_set _ _ hidx hdupf
          have hlt : r.fragments.count true < r.fragments.length :=
            count_true_lt _ _ hidx hdupf
          have hmod : (r.fragments.count true + 1) % 65536 =
              r.fragments.count true + 1 := by
            apply Nat.mod_eq_of_lt
            omega
          split at h
          case isTrue =>
            split at h
            case isFalse => exact Option.noConfusion h
            case isTrue =>
              simp only [Option.some.injEq, Prod.mk.injEq] at h
              rw [← h.1]
              refine ⟨?_, ?_, ?_, htot⟩
              · simp [hlen1]
              · simp [hwlen, hlen2]
              · simp [hcnt, hcount, hmod]
          case isFalse =>
            simp only [Option.some.injEq, Prod.mk.injEq] at h
            rw [← h.1]
            refine ⟨?_, ?_, ?_, htot⟩
            · simp [hlen1]
            · simp [hwlen, hlen2]
            · simp [hcnt, hcount, hmod]

theorem process_inv (r r1 : Receiver) (d : List Nat) (out : Option (List Nat) × Bool)
    (hinv : RInv r) (h : r.process_datagram d = some (r1, out)) : RInv r1 := by
  by_cases hlen : d.length < headerSize
  · rw [process_datagram_short r d hlen] at h
    simp only [Option.some.injEq, Prod.mk.injEq] at h
    rw [← h.1]
    exact hinv
  · rw [process_datagram_long r d hlen] at h
    exact admitFragment_inv _ _ _ _ _ _
      (preState_inv r (parseHeader d) (parse_fragments_lt d) hinv) h

theorem reachable_inv (r : Receiver) (h : Reachable r) : RInv r := by
  induction h with
  | base m =>
    refine ⟨rfl, rfl, rfl, ?_⟩
    show (0 : Nat) < 65536
    norm_num
  | step hr hstep ih => exact process_inv _ _ _ _ ih hstep

/-- C6: in every receiver state reachable by non-panicking calls, whenever a
sequence is in progress the bit-set length equals `total_fragments`, the
buffer length equals `payload_size` (both recorded from the header that
started the sequence, see `Receiver.start_new_sequence`), and
`received_fragments` equals the number of set bits. -/
theorem C6_receiver_invariant (r : Receiver) (s : Nat) (hr : Reachable r)
    (_hs : r.current_sequence = some s) :
    r.fragments.length = r.total_fragments ∧
    r.buffer.length = r.payload_size ∧
    r.received_fragments = r.fragments.count true := by
  obtain ⟨h1, h2, h3, _⟩ := reachable_inv r hr
  exact ⟨h1, h2, h3⟩

/-- C6 witness: the invariant at the concrete reachable state produced by one
first-fragment datagram. -/
theorem C6_receiver_invariant_witness :
    (Receiver.mk [9, 0] [true, false] (some 0) 2 1 2 0).fragments.length =
      (Receiver.mk [9, 0] [true, false] (some 0) 2 1 2 0).total_fragments ∧
    (Receiver.mk [9, 0] [true, false] (some 0) 2 1 2 0).buffer.length =
      (Receiver.mk [9, 0] [true, false] (some 0) 2 1 2 0).payload_size ∧
    (Receiver.mk [9, 0] [true, false] (some 0) 2 1 2 0).received_fragments =
      (Receiver.mk [9, 0] [true, false] (some 0) 2 1 2 0).fragments.count true := by
  have hreach : Reachable (Receiver.mk [9, 0] [true, false] (some 0) 2 1 2 0) :=
    @Reachable.step (Receiver.new 9000)
      (Receiver.mk [9, 0] [true, false] (some 0) 2 1 2 0)
      (serializeHeader ⟨0, 0, 2, 2, 0⟩ ++ [9]) (none, true)
      (Reachable.base 9000) (by decide)
  exact C6_receiver_invariant _ 0 hreach rfl

/-! ## Abstract reassembly states for the round-trip proofs (C1, C5) -/

/-- The reassembly buffer after the chunks of the fragments in `seen` have
been copied in: position `p` holds `data[p]` when fragment `p / MAX_PAYLOAD_SIZE`
has been received, and the fill byte 0 otherwise. -/
def bufOf (data : List Nat) (seen : Finset Nat) : List Nat :=
  (List.range data.length).map fun p =>
    if p / MAX_PAYLOAD_SIZE ∈ seen then data.getD p 0 else 0

/-- The fragment bit-set with exactly the bits in `seen` set. -/
def bitsOf (n : Nat) (seen : Finset Nat) : List Bool :=
  (List.range n).map fun j => decide (j ∈ seen)

/-- The receiver state mid-reassembly of the fresh-sender sequence 0 of
`data`, after receiving exactly the fragments in `seen`. -/
def stateOf (data : List Nat) (n L : Nat) (seen : Finset Nat) : Receiver :=
  { buffer := bufOf data seen
    fragments := bitsOf n seen
    current_sequence := some 0
    total_fragments := n
    received_fragments := seen.card
    payload_size := data.length
    last_source_time_us := L }

theorem bufOf_length (data : List Nat) (seen : Finset Nat) :
    (bufOf data seen).length = data.length := by
  simp [bufOf]

theorem bitsOf_length (n : Nat) (seen : Finset Nat) :
    (bitsOf n seen).length = n := by
  simp [bitsOf]

theorem bufOf_empty (data : List Nat) :
    bufOf data (∅ : Finset Nat) = List.replicate data.length 0 := by
  apply List.ext_getElem
  · simp [bufOf]
  · intro p hp1 hp2
    simp [bufOf]

theorem bitsOf_empty (n : Nat) :
    bitsOf n (∅ : Finset Nat) = List.replicate n false := by
  apply List.ext_getElem
  · simp [bitsOf]
  · intro p hp1 hp2
    simp [bitsOf]

theorem bitsOf_getD (n : Nat) (seen : Finset Nat) (j : Nat) (hj : j < n) :
    (bitsOf n seen).getD j false = decide (j ∈ seen) := by
  rw [List.getD_eq_getElem _ _ (by simp [bitsOf]; omega)]
  simp [bitsOf]

theorem bitsOf_set (n : Nat) (seen : Finset Nat) (j : Nat) (_hj : j < n) :
    (bitsOf n seen).set j true = bitsOf n (insert j seen) := by
  apply List.ext_getElem
  · simp [bitsOf]
  · intro p hp1 hp2
    rw [List.getElem_set]
    by_cases hpj : j = p
    · subst hpj
      simp [bitsOf]
    · rw [if_neg hpj]
      simp only [bitsOf, List.getElem_map, List.getElem_range]
      congr 1
      simp [Finset.mem_insert]
      tauto

theorem chunk_length (data : List Nat) (j : Nat) :
    (chunk data j).length = min MAX_PAYLOAD_SIZE (data.length - j * MAX_PAYLOAD_SIZE) := by
  simp [chunk]

theorem chunk_getD (data : List Nat) (j q : Nat) (hq : q < (chunk data j).length) :
    (chunk data j).getD q 0 = data.getD (j * MAX_PAYLOAD_SIZE + q) 0 := by
  have hq2 : q < MAX_PAYLOAD_SIZE ∧ q < data.length - j * MAX_PAYLOAD_SIZE := by
    rw [chunk_length] at hq
    omega
  rw [List.getD_eq_getElem _ _ hq,
    List.getD_eq_getElem _ _ (show j * MAX_PAYLOAD_SIZE + q < data.length by omega)]
  simp only [chunk, List.getElem_take, List.getElem_drop]

theorem bufOf_getD (data : List Nat) (seen : Finset Nat) (p : Nat) (hp : p < data.length) :
    (bufOf data seen).getD p 0 =
      if p / MAX_PAYLOAD_SIZE ∈ seen then data.getD p 0 else 0 := by
  rw [List.getD_eq_getElem _ _ (by rw [bufOf_length]; omega)]
  simp [bufOf]

theorem writeAt_getD (buf : List Nat) (off : Nat) (segm : List Nat)
    (hb : off + segm.length ≤ buf.length) (p : Nat) :
    (writeAt buf off segm).getD p 0 =
      if p < off then buf.getD p 0
      else if p < off + segm.length then segm.getD (p - off) 0
      else buf.getD p 0 := by
  have htl : (buf.take off).length = off := by
    rw [List.length_take]
    omega
  rw [writeAt, List.append_assoc]
  by_cases h1 : p < off
  · rw [if_pos h1, List.getD_append _ _ _ _ (by omega)]
    rw [List.getD_eq_getElem _ _ (by omega), List.getD_eq_getElem _ _ (by omega)]
    exact List.getElem_take ..
  · rw [if_neg h1, List.getD_append_right _ _ _ _ (by omega), htl]
    by_cases h2 : p < off + segm.length
    · rw [if_pos h2, List.getD_append _ _ _ _ (by omega)]
    · rw [if_neg h2, List.getD_append_right _ _ _ _ (by omega)]
      by_cases h3 : p < buf.length
      · rw [List.getD_eq_getElem _ _ (by rw [List.length_drop]; omega),
          List.getD_eq_getElem _ _ (by omega)]
        rw [List.getElem_drop]
        congr 1
        omega
      · rw [List.getD_eq_default _ _ (by rw [List.length_drop]; omega),
          List.getD_eq_default _ _ (by omega)]

theorem bufOf_writeAt (data : List Nat) (seen : Finset Nat) (j : Nat)
    (hoff : j * MAX_PAYLOAD_SIZE < data.length) :
    writeAt (bufOf data seen) (j * MAX_PAYLOAD_SIZE) (chunk data j) =
      bufOf data (insert j seen) := by
  have hc := chunk_length data j
  have hb : j * MAX_PAYLOAD_SIZE + (chunk data j).length ≤ (bufOf data seen).length := by
    rw [chunk_length, bufOf_length]
    omega
  have hmul : (j + 1) * MAX_PAYLOAD_SIZE = j * MAX_PAYLOAD_SIZE + MAX_PAYLOAD_SIZE := by
    ring
  apply List.ext_getElem
  · rw [writeAt_length _ _ _ hb, bufOf_length, bufOf_length]
  · intro p hp1 hp2
    have hp : p < data.length := by
      rw [bufOf_length] at hp2
      omega
    rw [← List.getD_eq_getElem _ 0 hp1, ← List.getD_eq_getElem _ 0 hp2]
    rw [writeAt_getD _ _ _ hb]
    by_cases h1 : p < j * MAX_PAYLOAD_SIZE
    · rw [if_pos h1, bufOf_getD _ _ _ hp, bufOf_getD _ _ _ hp]
      have hdiv : p / MAX_PAYLOAD_SIZE < j := (Nat.div_lt_iff_lt_mul MPS_pos).mpr (by omega)
      have hne : p / MAX_PAYLOAD_SIZE ≠ j := by omega
      simp [Finset.mem_insert, hne]
    · push_neg at h1
      by_cases h2 : p < j * MAX_PAYLOAD_SIZE + (chunk data j).length
      · rw [if_neg (by omega), if_pos h2,
          chunk_getD data j (p - j * MAX_PAYLOAD_SIZE) (by omega)]
        have heq : j * MAX_PAYLOAD_SIZE + (p - j * MAX_PAYLOAD_SIZE) = p := by omega
        rw [heq, bufOf_getD _ _ _ hp]
        have hlow : j ≤ p / MAX_PAYLOAD_SIZE :=
          (Nat.le_div_iff_mul_le MPS_pos).mpr (by omega)
        have hhigh : p / MAX_PAYLOAD_SIZE < j + 1 :=
          (Nat.div_lt_iff_lt_mul MPS_pos).mpr (by omega)
        have hdiv : p / MAX_PAYLOAD_SIZE = j := by omega
        simp [hdiv, Finset.mem_insert]
      · push_neg at h2
        rw [if_neg (by omega), if_neg (by omega), bufOf_getD _ _ _ hp, bufOf_getD _ _ _ hp]
        have hdiv : j + 1 ≤ p / MAX_PAYLOAD_SIZE :=
          (Nat.le_div_iff_mul_le MPS_pos).mpr (by omega)
        have hne : p / MAX_PAYLOAD_SIZE ≠ j := by omega
        simp [Finset.mem_insert, hne]

/-- The fully reassembled buffer is the original payload. -/
theorem bufOf_full (data : List Nat) (n : Nat)
    (hlen : data.length ≤ n * MAX_PAYLOAD_SIZE) :
    bufOf data (Finset.range n) = data := by
  apply List.ext_getElem
  · rw [bufOf_length]
  · intro p hp1 hp2
    have hp : p < data.length := hp2
    rw [← List.getD_eq_getElem _ 0 hp1, bufOf_getD _ _ _ hp,
      ← List.getD_eq_getElem _ 0 hp2]
    have hdiv : p / MAX_PAYLOAD_SIZE < n := (Nat.div_lt_iff_lt_mul MPS_pos).mpr (by omega)
    simp [Finset.mem_range, hdiv]

theorem off_lt (data : List Nat) (n : Nat)
    (hn : n = divCeil data.length MAX_PAYLOAD_SIZE) (hlen0 : 0 < data.length)
    (j : Nat) (hj : j < n) : j * MAX_PAYLOAD_SIZE < data.length := by
  have h2 : (n - 1) * MAX_PAYLOAD_SIZE < data.length := by
    rw [hn]
    exact divCeil_pred_lt _ _ MPS_pos hlen0
  have h3 : j * MAX_PAYLOAD_SIZE ≤ (n - 1) * MAX_PAYLOAD_SIZE :=
    Nat.mul_le_mul_right _ (by omega)
  omega

theorem len_le_mul (data : List Nat) (n : Nat)
    (hn : n = divCeil data.length MAX_PAYLOAD_SIZE) :
    data.length ≤ n * MAX_PAYLOAD_SIZE := by
  rw [hn]
  exact le_divCeil_mul _ _ MPS_pos

theorem dgram_length (data : List Nat) (t n j : Nat) :
    (dgram data t n j).length = headerSize + (chunk data j).length := by
  rw [dgram, List.length_append, serializeHeader_length]

theorem dgram_drop (data : List Nat) (t n j : Nat) :
    (dgram data t n j).drop headerSize = chunk data j := by
  rw [dgram, show headerSize = (serializeHeader ⟨0, j, n, data.length, t⟩).length from
    (serializeHeader_length _).symm, List.drop_left]

theorem parse_dgram (data : List Nat) (t n : Nat)
    (hn : n = divCeil data.length MAX_PAYLOAD_SIZE) (hn65535 : n ≤ 65535)
    (ht : t < 2 ^ 64) (j : Nat) (hj : j < n) :
    parseHeader (dgram data t n j) = ⟨0, j, n, data.length, t⟩ := by
  have e16 : (2 : Nat) ^ 16 = 65536 := by norm_num
  have e32 : (2 : Nat) ^ 32 = 4294967296 := by norm_num
  have hM : MAX_PAYLOAD_SIZE = 8980 := by
    norm_num [MAX_PAYLOAD_SIZE, MAX_DATAGRAM_SIZE, headerSize]
  have hlen32 : data.length < 2 ^ 32 := by
    have h1 := len_le_mul data n hn
    rw [hM] at h1
    rw [e32]
    have h2 : n * 8980 ≤ 65535 * 8980 := Nat.mul_le_mul_right _ hn65535
    omega
  rw [dgram_eq_dgramAt, parse_dgramAt]
  rw [Nat.zero_mod, Nat.mod_eq_of_lt (show j < 2 ^ 16 by omega),
    Nat.mod_eq_of_lt (show n < 2 ^ 16 by omega),
    Nat.mod_eq_of_lt hlen32, Nat.mod_eq_of_lt ht]

theorem seen_card_lt (n : Nat) (seen : Finset Nat) (hseen : seen ⊆ Finset.range n)
    (j : Nat) (hj : j < n) (hjm : j ∉ seen) : seen.card < n := by
  have hss : seen ⊂ Finset.range n := by
    constructor
    · exact hseen
    · intro hsup
      exact hjm (hsup (Finset.mem_range.mpr hj))
  have := Finset.card_lt_card hss
  simpa using this

/-- Admitting a fresh, non-final fragment `j`: the bit is set, the chunk is
copied, and no payload is returned. -/
theorem admit_new (data : List Nat) (t n L : Nat) (sc : Bool)
    (hn : n = divCeil data.length MAX_PAYLOAD_SIZE) (hlen0 : 0 < data.length)
    (hn65535 : n ≤ 65535) (seen : Finset Nat) (hseen : seen ⊆ Finset.range n)
    (j : Nat) (hj : j < n) (hjm : j ∉ seen) (hcomp : insert j seen ≠ Finset.range n) :
    (stateOf data n L seen).admitFragment ⟨0, j, n, data.length, t⟩
        (dgram data t n j) sc =
      some (stateOf data n L (insert j seen), (none, sc)) := by
  have hchunk := chunk_length data j
  have hoff := off_lt data n hn hlen0 j hj
  have hcard := seen_card_lt n seen hseen j hj hjm
  have hmod : (seen.card + 1) % 65536 = seen.card + 1 := Nat.mod_eq_of_lt (by omega)
  have hinsub : insert j seen ⊆ Finset.range n :=
    Finset.insert_subset_iff.mpr ⟨Finset.mem_range.mpr hj, hseen⟩
  have hne : seen.card + 1 ≠ n := by
    intro heq
    apply hcomp
    apply Finset.eq_of_subset_of_card_le hinsub
    rw [Finset.card_range, Finset.card_insert_of_not_mem hjm]
    omega
  simp only [Receiver.admitFragment, stateOf]
  rw [if_neg (show ¬(n ≤ j ∨ n = 0) by omega)]
  rw [if_pos (show j < (bitsOf n seen).length by rw [bitsOf_length]; omega)]
  rw [bitsOf_getD n seen j hj]
  rw [if_neg (show ¬(decide (j ∈ seen) = true) by simp [hjm])]
  rw [if_neg (show ¬((bufOf data seen).length <
      j * MAX_PAYLOAD_SIZE + ((dgram data t n j).length - headerSize)) by
    rw [dgram_length, bufOf_length]
    omega)]
  rw [if_neg (show ¬((seen.card + 1) % 65536 = n) by rw [hmod]; exact hne)]
  rw [dgram_drop, bufOf_writeAt data seen j hoff, bitsOf_set n seen j hj, hmod,
    Finset.card_insert_of_not_mem hjm]

/-- Admitting a duplicate fragment: dropped with no state change. -/
theorem admit_dup (data : List Nat) (t n L : Nat) (sc : Bool)
    (seen : Finset Nat) (j : Nat) (hj : j < n) (hjm : j ∈ seen) :
    (stateOf data n L seen).admitFragment ⟨0, j, n, data.length, t⟩
        (dgram data t n j) sc =
      some (stateOf data n L seen, (none, sc)) := by
  simp only [Receiver.admitFragment, stateOf]
  rw [if_neg (show ¬(n ≤ j ∨ n = 0) by omega)]
  rw [if_pos (show j < (bitsOf n seen).length by rw [bitsOf_length]; omega)]
  rw [bitsOf_getD n seen j hj]
  rw [if_pos (show decide (j ∈ seen) = true by simp [hjm])]

/-- Admitting the last missing fragment: the full payload is returned and the
sequence is cleared. -/
theorem admit_complete (data : List Nat) (t n L : Nat) (sc : Bool)
    (hn : n = divCeil data.length MAX_PAYLOAD_SIZE) (hlen0 : 0 < data.length)
    (hn65535 : n ≤ 65535) (seen : Finset Nat) (_hseen : seen ⊆ Finset.range n)
    (j : Nat) (hj : j < n) (hjm : j ∉ seen) (hcomp : insert j seen = Finset.range n) :
    (stateOf data n L seen).admitFragment ⟨0, j, n, data.length, t⟩
        (dgram data t n j) sc =
      some ({ stateOf data n L (insert j seen) with current_sequence := none },
        (some data, sc)) := by
  have hchunk := chunk_length data j
  have hoff := off_lt data n hn hlen0 j hj
  have hcard : seen.card + 1 = n := by
    have h1 : (insert j seen).card = n := by rw [hcomp, Finset.card_range]
    rw [Finset.card_insert_of_not_mem hjm] at h1
    exact h1
  have hmod : (seen.card + 1) % 65536 = seen.card + 1 := Nat.mod_eq_of_lt (by omega)
  simp only [Receiver.admitFragment, stateOf]
  rw [if_neg (show ¬(n ≤ j ∨ n = 0) by omega)]
  rw [if_pos (show j < (bitsOf n seen).length by rw [bitsOf_length]; omega)]
  rw [bitsOf_getD n seen j hj]
  rw [if_neg (show ¬(decide (j ∈ seen) = true) by simp [hjm])]
  rw [if_neg (show ¬((bufOf data seen).length <
      j * MAX_PAYLOAD_SIZE + ((dgram data t n j).length - headerSize)) by
    rw [dgram_length, bufOf_length]
    omega)]
  rw [if_pos (show (seen.card + 1) % 65536 = n by rw [hmod]; exact hcard)]
  rw [dgram_drop, bufOf_writeAt data seen j hoff, bitsOf_set n seen j hj, hcomp,
    bufOf_full data n (len_le_mul data n hn)]
  rw [if_pos (le_refl data.length)]
  rw [List.take_length, hmod, hcard, Finset.card_range]

theorem stateOf_set_last (data : List Nat) (n L v : Nat) (seen : Finset Nat) :
    ({ stateOf data n L seen with last_source_time_us := v } : Receiver) =
      stateOf data n v seen := rfl

theorem start_new_stateOf (r : Receiver) (data : List Nat) (t n j : Nat) :
    r.start_new_sequence ⟨0, j, n, data.length, t⟩ =
      stateOf data n r.last_source_time_us ∅ := by
  rw [Receiver.start_new_sequence, stateOf, bufOf_empty, bitsOf_empty]
  simp

theorem dgram_not_short (data : List Nat) (t n j : Nat) :
    ¬ (dgram data t n j).length < headerSize := by
  rw [dgram_length]
  omega

/-- Processing an ideal datagram from a mid-sequence abstract state reduces to
`admitFragment` on the abstract state with the time latched. -/
theorem process_stateOf (data : List Nat) (t n L : Nat)
    (hn : n = divCeil data.length MAX_PAYLOAD_SIZE) (hn65535 : n ≤ 65535)
    (ht : t < 2 ^ 64) (seen : Finset Nat) (j : Nat) (hj : j < n) :
    (stateOf data n L seen).process_datagram (dgram data t n j) =
      (stateOf data n (if j = 0 then t else L) seen).admitFragment
        ⟨0, j, n, data.length, t⟩ (dgram data t n j) (decide (j = 0)) := by
  rw [process_datagram_long _ _ (dgram_not_short data t n j)]
  rw [parse_dgram data t n hn hn65535 ht j hj]
  rw [preState_same_sequence _ _ 0 rfl rfl]
  by_cases hf : j = 0
  · simp only [hf, if_pos]
    rw [stateOf_set_last]
  · simp only [hf, if_neg, ite_false]

/-- Processing an ideal datagram from the fresh receiver reduces to
`admitFragment` on the empty abstract state. -/
theorem process_fresh (data : List Nat) (t n m : Nat)
    (hn : n = divCeil data.length MAX_PAYLOAD_SIZE) (hn65535 : n ≤ 65535)
    (ht : t < 2 ^ 64) (j : Nat) (hj : j < n) :
    (Receiver.new m).process_datagram (dgram data t n j) =
      (stateOf data n (if j = 0 then t else 0) ∅).admitFragment
        ⟨0, j, n, data.length, t⟩ (dgram data t n j) (decide (j = 0)) := by
  rw [process_datagram_long _ _ (dgram_not_short data t n j)]
  rw [parse_dgram data t n hn hn65535 ht j hj]
  rw [preState_of_different (Receiver.new m) ⟨0, j, n, data.length, t⟩ rfl]
  by_cases hf : j = 0
  · simp only [hf, if_pos]
    rw [start_new_stateOf]
  · simp only [hf, if_neg, ite_false]
    rw [start_new_stateOf]
    rfl

/-- Running a list of ideal datagrams, none of which completes the sequence,
from a mid-sequence abstract state: all calls return `(none, fragment = 0)`
and the seen-set accumulates. -/
theorem runAll_stateOf (data : List Nat) (t n : Nat)
    (hn : n = divCeil data.length MAX_PAYLOAD_SIZE) (hlen0 : 0 < data.length)
    (hn65535 : n ≤ 65535) (ht : t < 2 ^ 64) :
    ∀ (js : List Nat) (L : Nat) (seen : Finset Nat), seen ⊆ Finset.range n →
      (∀ j ∈ js, j < n) → seen ∪ js.toFinset ≠ Finset.range n →
      runAll (stateOf data n L seen) (js.map (dgram data t n)) =
        some (stateOf data n (if 0 ∈ js then t else L) (seen ∪ js.toFinset),
          js.map (fun j => (none, decide (j = 0)))) := by
  intro js
  induction js with
  | nil =>
    intro L seen hsub hall hne
    simp [runAll]
  | cons j rest ih =>
    intro L seen hsub hall hne
    have hj : j < n := hall j (List.mem_cons_self j rest)
    have hS : insert j seen ∪ rest.toFinset = seen ∪ (j :: rest).toFinset := by
      simp [List.toFinset_cons, Finset.insert_union, Finset.union_insert]
    have hL : (if 0 ∈ rest then t else if j = 0 then t else L) =
        (if 0 ∈ (j :: rest) then t else L) := by
      by_cases h0r : 0 ∈ rest
      · simp [h0r, List.mem_cons]
      · by_cases hj0 : j = 0
        · simp [h0r, hj0, List.mem_cons]
        · simp [h0r, hj0, List.mem_cons, eq_comm]
    simp only [List.map_cons, runAll]
    rw [process_stateOf data t n L hn hn65535 ht seen j hj]
    by_cases hjm : j ∈ seen
    · have hSd : seen ∪ rest.toFinset = seen ∪ (j :: rest).toFinset := by
        rw [← hS, Finset.insert_union, Finset.insert_eq_self.mpr
          (Finset.mem_union_left _ hjm)]
      rw [admit_dup data t n _ _ seen j hj hjm]
      simp only []
      rw [ih (if j = 0 then t else L) seen hsub
        (fun x hx => hall x (List.mem_cons_of_mem j hx)) (by rw [hSd]; exact hne)]
      simp only []
      rw [hSd, hL]
    · have hins : insert j seen ⊆ Finset.range n :=
        Finset.insert_subset_iff.mpr ⟨Finset.mem_range.mpr hj, hsub⟩
      have hcomp2 : insert j seen ≠ Finset.range n := by
        intro heq
        apply hne
        have hsup : Finset.range n ⊆ seen ∪ (j :: rest).toFinset := by
          rw [← heq]
          intro x hx
          rcases Finset.mem_insert.mp hx with hxj | hxs
          · subst hxj
            exact Finset.mem_union_right _ (by simp [List.toFinset_cons])
          · exact Finset.mem_union_left _ hxs
        have hsub2 : seen ∪ (j :: rest).toFinset ⊆ Finset.range n := by
          apply Finset.union_subset hsub
          intro x hx
          rw [List.mem_toFinset] at hx
          exact Finset.mem_range.mpr (hall x hx)
        exact Finset.Subset.antisymm hsub2 hsup
      rw [admit_new data t n _ _ hn hlen0 hn65535 seen hsub j hj hjm hcomp2]
      simp only []
      rw [ih (if j = 0 then t else L) (insert j seen) hins
        (fun x hx => hall x (List.mem_cons_of_mem j hx)) (by rw [hS]; exact hne)]
      simp only []
      rw [hS, hL]

theorem runAll_append (r : Receiver) (l1 l2 : List (List Nat)) :
    runAll r (l1 ++ l2) =
      match runAll r l1 with
      | none => none
      | some (r1, o1) =>
        match runAll r1 l2 with
        | none => none
        | some (r2, o2) => some (r2, o1 ++ o2) := by
  induction l1 generalizing r with
  | nil =>
    cases h : runAll r l2 with
    | none => simp [runAll, h]
    | some p => simp [runAll, h]
  | cons d ds ih =>
    cases hp : r.process_datagram d with
    | none => simp [runAll, hp]
    | some p =>
      obtain ⟨r1, out⟩ := p
      simp only [List.cons_append, runAll, hp, List.append_eq]
      rw [ih r1]
      cases hq : runAll r1 ds with
      | none => simp
      | some q =>
        obtain ⟨r2, o2⟩ := q
        cases hw : runAll r2 l2 <;> simp [hw]

/-- Running a non-completing list of ideal datagrams from the fresh
receiver. -/
theorem runAll_fresh (data : List Nat) (t n m : Nat)
    (hn : n = divCeil data.length MAX_PAYLOAD_SIZE) (hlen0 : 0 < data.length)
    (hn65535 : n ≤ 65535) (ht : t < 2 ^ 64) (ks : List Nat) (hks : ks ≠ [])
    (hall : ∀ k ∈ ks, k < n) (hne : ks.toFinset ≠ Finset.range n) :
    runAll (Receiver.new m) (ks.map (dgram data t n)) =
      some (stateOf data n (if 0 ∈ ks then t else 0) ks.toFinset,
        ks.map (fun k => (none, decide (k = 0)))) := by
  cases ks with
  | nil => exact absurd rfl hks
  | cons k0 rest =>
    have hk0 : k0 < n := hall k0 (List.mem_cons_self k0 rest)
    have hsubc : (k0 :: rest).toFinset ⊆ Finset.range n := by
      intro x hx
      rw [List.mem_toFinset] at hx
      exact Finset.mem_range.mpr (hall x hx)
    have h1 : insert k0 (∅ : Finset Nat) ≠ Finset.range n := by
      intro heq
      apply hne
      apply Finset.Subset.antisymm hsubc
      rw [← heq]
      intro x hx
      rcases Finset.mem_insert.mp hx with hxk | hxe
      · subst hxk
        simp [List.toFinset_cons]
      · exact absurd hxe (Finset.not_mem_empty x)
    have hS : insert k0 (∅ : Finset Nat) ∪ rest.toFinset = (k0 :: rest).toFinset := by
      ext x
      simp [List.toFinset_cons, Finset.mem_insert]
    have hL : (if 0 ∈ rest then t else if k0 = 0 then t else 0) =
        (if 0 ∈ (k0 :: rest) then t else 0) := by
      by_cases h0r : 0 ∈ rest
      · simp [h0r, List.mem_cons]
      · by_cases hk00 : k0 = 0
        · simp [h0r, hk00, List.mem_cons]
        · simp [h0r, hk00, List.mem_cons, eq_comm]
    simp only [List.map_cons, runAll]
    rw [process_fresh data t n m hn hn65535 ht k0 hk0]
    rw [admit_new data t n _ _ hn hlen0 hn65535 ∅ (Finset.empty_subset _) k0 hk0
      (Finset.not_mem_empty k0) h1]
    simp only []
    rw [runAll_stateOf data t n hn hlen0 hn65535 ht rest (if k0 = 0 then t else 0)
      (insert k0 ∅) (Finset.insert_subset_iff.mpr
        ⟨Finset.mem_range.mpr hk0, Finset.empty_subset _⟩)
      (fun x hx => hall x (List.mem_cons_of_mem k0 hx)) (by rw [hS]; exact hne)]
    simp only []
    rw [hS, hL]

/-- Running a full delivery whose final datagram completes the sequence: every
call before the last returns `none`, the last returns the payload, and the
fragment-0 timestamp is latched. -/
theorem runAll_complete (data : List Nat) (t n m : Nat)
    (hn : n = divCeil data.length MAX_PAYLOAD_SIZE) (hlen0 : 0 < data.length)
    (hn65535 : n ≤ 65535) (ht : t < 2 ^ 64) (js : List Nat) (hjs : js ≠ [])
    (hall : ∀ j ∈ js, j < n) (hfull : js.toFinset = Finset.range n)
    (hpre : js.dropLast.toFinset ≠ Finset.range n) :
    ∃ rf, runAll (Receiver.new m) (js.map (dgram data t n)) =
      some (rf, js.dropLast.map (fun j => (none, decide (j = 0))) ++
        [(some data, decide (js.getLast hjs = 0))]) ∧
      rf.last_source_time_us = t := by
  have hsplit : js.dropLast ++ [js.getLast hjs] = js := List.dropLast_append_getLast hjs
  set k := js.getLast hjs with hk
  set body := js.dropLast with hbody
  have hkn : k < n := hall k (by
    rw [← hsplit]
    exact List.mem_append_right _ (List.mem_singleton_self k))
  have hn0 : 0 < n := by omega
  have hbodysub : body.toFinset ⊆ Finset.range n := by
    intro x hx
    rw [List.mem_toFinset] at hx
    exact Finset.mem_range.mpr (hall x (by
      rw [← hsplit]
      exact List.mem_append_left _ hx))
  have hinsert : insert k body.toFinset = Finset.range n := by
    rw [← hfull, ← hsplit]
    ext x
    simp [List.mem_toFinset, List.mem_append, Finset.mem_insert]
    tauto
  have hkm : k ∉ body.toFinset := by
    intro hkmem
    apply hpre
    rw [← Finset.insert_eq_self.mpr hkmem]
    exact hinsert
  by_cases hb : body = []
  · have hinsert0 : insert k (∅ : Finset Nat) = Finset.range n := by
      rw [hb] at hinsert
      simpa using hinsert
    have hk0 : k = 0 := by
      have h0 : (0 : Nat) ∈ insert k (∅ : Finset Nat) := by
        rw [hinsert0]
        exact Finset.mem_range.mpr hn0
      rcases Finset.mem_insert.mp h0 with h | h
      · omega
      · exact absurd h (Finset.not_mem_empty 0)
    refine ⟨{ stateOf data n (if k = 0 then t else 0) (insert k ∅) with
        current_sequence := none }, ?_, ?_⟩
    · rw [← hsplit, hb]
      simp only [List.nil_append, List.map_cons, List.map_nil, runAll]
      rw [process_fresh data t n m hn hn65535 ht k hkn]
      rw [admit_complete data t n _ _ hn hlen0 hn65535 ∅ (Finset.empty_subset _) k hkn
        (Finset.not_mem_empty k) hinsert0]
    · simp [hk0, stateOf]
  · have hallbody : ∀ x ∈ body, x < n := fun x hx => hall x (by
      rw [← hsplit]
      exact List.mem_append_left _ hx)
    refine ⟨{ stateOf data n (if k = 0 then t else (if 0 ∈ body then t else 0))
        (insert k body.toFinset) with current_sequence := none }, ?_, ?_⟩
    · rw [← hsplit, List.map_append]
      rw [runAll_append]
      rw [runAll_fresh data t n m hn hlen0 hn65535 ht body hb hallbody hpre]
      simp only [List.map_cons, List.map_nil, runAll]
      rw [process_stateOf data t n _ hn hn65535 ht body.toFinset k hkn]
      rw [admit_complete data t n _ _ hn hlen0 hn65535 body.toFinset hbodysub k hkn
        hkm hinsert]
    · have h0mem : (0 : Nat) ∈ insert k body.toFinset := by
        rw [hinsert]
        exact Finset.mem_range.mpr hn0
      rcases Finset.mem_insert.mp h0mem with h0k | h0b
      · simp [stateOf, ← h0k]
      · have h0l : (0 : Nat) ∈ body := List.mem_toFinset.mp h0b
        by_cases hk0 : k = 0 <;> simp [stateOf, hk0, h0l]

theorem toFinset_list_range (n : Nat) : (List.range n).toFinset = Finset.range n := by
  ext x
  simp [List.mem_range, Finset.mem_range]

/-- C1: round-trip with reorder invariance — feeding any permutation of the
datagrams of one successful fresh-sender send of `data` into a fresh receiver
returns a payload on exactly one call, that payload is `data`, and the
receiver's latched source time is `t` afterwards. -/
theorem C1_roundtrip_reorder (data : List Nat) (t m : Nat)
    (hlen0 : 0 < data.length) (hlen : data.length ≤ MAX_PAYLOAD_SIZE * 65535)
    (ht : t < 2 ^ 64) (l : List (List Nat)) (hperm : l.Perm (sentDatagrams data t)) :
    ∃ rf outs, runAll (Receiver.new m) l = some (rf, outs) ∧
      outs.countP (fun o => o.1.isSome) = 1 ∧
      (∀ o ∈ outs, o.1.isSome = true → o.1 = some data) ∧
      rf.last_source_time_us = t := by
  have hn : divCeil data.length MAX_PAYLOAD_SIZE =
      divCeil data.length MAX_PAYLOAD_SIZE := rfl
  set n := divCeil data.length MAX_PAYLOAD_SIZE with hndef
  have hn65535 : n ≤ 65535 := by
    rw [hndef]
    exact (divCeil_le_iff _ _ _ MPS_pos).mpr (by rw [Nat.mul_comm]; exact hlen)
  have hsent : sentDatagrams data t = (List.range n).map (dgram data t n) :=
    sentDatagrams_eq data t hn65535
  rw [hsent] at hperm
  have hmem : ∀ d ∈ l, ∃ j, j < n ∧ d = dgram data t n j := by
    intro d hd
    have hd2 : d ∈ (List.range n).map (dgram data t n) := hperm.mem_iff.mp hd
    obtain ⟨j, hjr, hdj⟩ := List.mem_map.mp hd2
    exact ⟨j, List.mem_range.mp hjr, hdj.symm⟩
  have hinv : ∀ j, j < n → (parseHeader (dgram data t n j)).fragment = j := by
    intro j hj
    rw [parse_dgram data t n hndef hn65535 ht j hj]
  set js := l.map (fun d => (parseHeader d).fragment) with hjs
  have hlmap : js.map (dgram data t n) = l := by
    rw [hjs, List.map_map]
    have hcg : ∀ d ∈ l, (dgram data t n ∘ fun d => (parseHeader d).fragment) d = id d := by
      intro d hd
      obtain ⟨j, hj, hdj⟩ := hmem d hd
      simp [Function.comp, hdj, hinv j hj]
    rw [List.map_congr_left hcg, List.map_id]
  have hjsperm : js.Perm (List.range n) := by
    rw [hjs]
    have h1 : (l.map fun d => (parseHeader d).fragment).Perm
        (((List.range n).map (dgram data t n)).map fun d => (parseHeader d).fragment) :=
      hperm.map _
    rw [List.map_map] at h1
    have h2 : (List.range n).map ((fun d => (parseHeader d).fragment) ∘ dgram data t n) =
        (List.range n).map id := List.map_congr_left (by
      intro j hj
      simp [Function.comp, hinv j (List.mem_range.mp hj)])
    rw [h2, List.map_id] at h1
    exact h1
  have hjs_len : js.length = n := by rw [hjsperm.length_eq, List.length_range]
  have hn0 : 0 < n := by
    rw [hndef]
    exact divCeil_pos _ _ MPS_pos hlen0
  have hjsne : js ≠ [] := by
    intro h
    rw [h] at hjs_len
    simp at hjs_len
    omega
  have hall : ∀ j ∈ js, j < n := fun j hj =>
    List.mem_range.mp (hjsperm.mem_iff.mp hj)
  have hfull : js.toFinset = Finset.range n := by
    rw [List.toFinset_eq_of_perm _ _ hjsperm, toFinset_list_range]
  have hpre : js.dropLast.toFinset ≠ Finset.range n := by
    intro heq
    have h1 : js.dropLast.toFinset.card ≤ js.dropLast.length := List.toFinset_card_le _
    rw [heq, Finset.card_range, List.length_dropLast, hjs_len] at h1
    omega
  obtain ⟨rf, hrun, hlast⟩ := runAll_complete data t n m hndef hlen0 hn65535 ht js hjsne
    hall hfull hpre
  rw [hlmap] at hrun
  refine ⟨rf, _, hrun, ?_, ?_, hlast⟩
  · rw [List.countP_append]
    have hz : (js.dropLast.map fun j =>
        ((none : Option (List Nat)), decide (j = 0))).countP (fun o => o.1.isSome) = 0 := by
      rw [List.countP_eq_zero]
      intro o ho
      obtain ⟨j, _, hoj⟩ := List.mem_map.mp ho
      rw [← hoj]
      simp
    rw [hz]
    simp
  · intro o ho hsome
    rcases List.mem_append.mp ho with hleft | hright
    · obtain ⟨j, _, hoj⟩ := List.mem_map.mp hleft
      rw [← hoj] at hsome
      simp at hsome
    · rw [List.mem_singleton] at hright
      rw [hright]

/-- C1 witness: the single-datagram send of `[5]` delivered in order. -/
theorem C1_roundtrip_reorder_witness :
    ∃ rf outs, runAll (Receiver.new 100) (sentDatagrams [5] 3) = some (rf, outs) ∧
      outs.countP (fun o => o.1.isSome) = 1 ∧
      (∀ o ∈ outs, o.1.isSome = true → o.1 = some [5]) ∧
      rf.last_source_time_us = 3 :=
  C1_roundtrip_reorder [5] 3 100 (by decide) (by decide) (by decide) _ (List.Perm.refl _)

/-- C5 counterexample: delivering the one datagram of a single-fragment send
twice makes the receiver deliver the payload twice — the duplicate arriving
after completion restarts the sequence and completes it again, so the
round-trip conclusion (`Some` on exactly one call) fails. -/
theorem C5_duplicate_counterexample :
    (runAll (Receiver.new 9000) (sentDatagrams [5] 0 ++ sentDatagrams [5] 0)).map
      (fun x => x.2.countP (fun o => o.1.isSome)) = some 2 := by
  decide

/-- C5 (amended): for a delivery order in which a subset of the datagrams of
one send is delivered a second time with every duplicate arriving before the
completing call (the set of delivered fragment indices becomes complete only
at the final datagram), the receiver still yields the payload on exactly one
call, that payload is `data`, and each duplicate delivery leaves the
reassembly buffer unchanged. -/
theorem C5_amended_duplicates (data : List Nat) (t m : Nat)
    (hlen0 : 0 < data.length) (hlen : data.length ≤ MAX_PAYLOAD_SIZE * 65535)
    (ht : t < 2 ^ 64) (extra l : List (List Nat))
    (hex : extra.Sublist (sentDatagrams data t))
    (hperm : l.Perm (sentDatagrams data t ++ extra))
    (hpre : ((l.dropLast).map (fun d => (parseHeader d).fragment)).toFinset ≠
      Finset.range (sentDatagrams data t).length) :
    ∃ rf outs, runAll (Receiver.new m) l = some (rf, outs) ∧
      outs.countP (fun o => o.1.isSome) = 1 ∧
      (∀ o ∈ outs, o.1.isSome = true → o.1 = some data) ∧
      (∀ p (hp : p < l.length), l.get ⟨p, hp⟩ ∈ l.take p →
        ∃ rp op rq oq, runAll (Receiver.new m) (l.take p) = some (rp, op) ∧
          runAll (Receiver.new m) (l.take (p + 1)) = some (rq, oq) ∧
          rq.buffer = rp.buffer) := by
  set n := divCeil data.length MAX_PAYLOAD_SIZE with hndef
  have hn65535 : n ≤ 65535 := by
    rw [hndef]
    exact (divCeil_le_iff _ _ _ MPS_pos).mpr (by rw [Nat.mul_comm]; exact hlen)
  have hsent : sentDatagrams data t = (List.range n).map (dgram data t n) :=
    sentDatagrams_eq data t hn65535
  have hsentlen : (sentDatagrams data t).length = n := by
    rw [hsent, List.length_map, List.length_range]
  rw [hsent] at hperm hex
  rw [hsentlen] at hpre
  have hn0 : 0 < n := by
    rw [hndef]
    exact divCeil_pos _ _ MPS_pos hlen0
  have hinv : ∀ j, j < n → (parseHeader (dgram data t n j)).fragment = j := by
    intro j hj
    rw [parse_dgram data t n hndef hn65535 ht j hj]
  have hmem : ∀ d ∈ l, ∃ j, j < n ∧ d = dgram data t n j := by
    intro d hd
    have hd2 : d ∈ (List.range n).map (dgram data t n) ++ extra := hperm.mem_iff.mp hd
    have hd3 : d ∈ (List.range n).map (dgram data t n) := by
      rcases List.mem_append.mp hd2 with h | h
      · exact h
      · exact hex.subset h
    obtain ⟨j, hjr, hdj⟩ := List.mem_map.mp hd3
    exact ⟨j, List.mem_range.mp hjr, hdj.symm⟩
  set js := l.map (fun d => (parseHeader d).fragment) with hjs
  have hlmap : js.map (dgram data t n) = l := by
    rw [hjs, List.map_map]
    have hcg : ∀ d ∈ l, (dgram data t n ∘ fun d => (parseHeader d).fragment) d = id d := by
      intro d hd
      obtain ⟨j, hj, hdj⟩ := hmem d hd
      simp [Function.comp, hdj, hinv j hj]
    rw [List.map_congr_left hcg, List.map_id]
  have hall : ∀ j ∈ js, j < n := by
    intro j hj
    rw [hjs] at hj
    obtain ⟨d, hd, hdj⟩ := List.mem_map.mp hj
    obtain ⟨j2, hj2, hdj2⟩ := hmem d hd
    rw [← hdj, hdj2, hinv j2 hj2]
    exact hj2
  have hjssub : js.toFinset ⊆ Finset.range n := by
    intro x hx
    rw [List.mem_toFinset] at hx
    exact Finset.mem_range.mpr (hall x hx)
  have hfull : js.toFinset = Finset.range n := by
    apply Finset.Subset.antisymm hjssub
    intro x hx
    rw [Finset.mem_range] at hx
    rw [List.mem_toFinset, hjs]
    have hdx : dgram data t n x ∈ l := by
      apply hperm.mem_iff.mpr
      apply List.mem_append_left
      exact List.mem_map.mpr ⟨x, List.mem_range.mpr hx, rfl⟩
    refine List.mem_map.mpr ⟨dgram data t n x, hdx, hinv x hx⟩
  have hjslen : n ≤ js.length := by
    have h1 : l.length = n + extra.length := by
      rw [hperm.length_eq, List.length_append, List.length_map, List.length_range]
    rw [hjs, List.length_map]
    omega
  have hjsne : js ≠ [] := by
    intro h
    rw [h] at hjslen
    simp at hjslen
    omega
  have hjsdrop : js.dropLast = l.dropLast.map (fun d => (parseHeader d).fragment) := by
    rw [hjs, List.map_dropLast]
  have hpre2 : js.dropLast.toFinset ≠ Finset.range n := by
    rw [hjsdrop]
    exact hpre
  obtain ⟨rf, hrun, hlast⟩ := runAll_complete data t n m hndef hlen0 hn65535 ht js hjsne
    hall hfull hpre2
  rw [hlmap] at hrun
  refine ⟨rf, _, hrun, ?_, ?_, ?_⟩
  · rw [List.countP_append]
    have hz : (js.dropLast.map fun j =>
        ((none : Option (List Nat)), decide (j = 0))).countP (fun o => o.1.isSome) = 0 := by
      rw [List.countP_eq_zero]
      intro o ho
      obtain ⟨j, _, hoj⟩ := List.mem_map.mp ho
      rw [← hoj]
      simp
    rw [hz]
    simp
  · intro o ho hsome
    rcases List.mem_append.mp ho with hleft | hright
    · obtain ⟨j, _, hoj⟩ := List.mem_map.mp hleft
      rw [← hoj] at hsome
      simp at hsome
    · rw [List.mem_singleton] at hright
      rw [hright]
  · intro p hp hdup
    have hlen_eq : js.length = l.length := by rw [hjs, List.length_map]
    by_cases hp0 : p = 0
    · subst hp0
      simp at hdup
    have hpjs : p < js.length := by omega
    have hgetd : js.getD p 0 = (parseHeader (l.get ⟨p, hp⟩)).fragment := by
      rw [hjs, List.getD_eq_getElem _ _ (by rw [List.length_map]; exact hp),
        List.getElem_map]
      rfl
    have htakemap : ∀ q, js.take q = (l.take q).map (fun d => (parseHeader d).fragment) := by
      intro q
      rw [hjs, List.map_take]
    have hjdup : js.getD p 0 ∈ js.take p := by
      rw [hgetd, htakemap]
      exact List.mem_map.mpr ⟨l.get ⟨p, hp⟩, hdup, rfl⟩
    have hsucc : js.take (p + 1) = js.take p ++ [js.getD p 0] := by
      rw [List.getD_eq_getElem _ _ hpjs, ← List.concat_eq_append,
        List.take_concat_get]
    have hgl : js.getLast hjsne ∈ js := List.getLast_mem hjsne
    have hklast : js.getLast hjsne ∉ js.dropLast.toFinset := by
      intro hkmem
      apply hpre2
      have hsplit2 : js.dropLast ++ [js.getLast hjsne] = js :=
        List.dropLast_append_getLast hjsne
      apply Finset.Subset.antisymm
      · intro x hx
        rw [List.mem_toFinset] at hx
        exact Finset.mem_range.mpr (hall x (List.dropLast_subset _ hx))
      · rw [← hfull]
        intro x hx
        rw [List.mem_toFinset] at hx
        rw [List.mem_toFinset]
        rcases (by rw [← hsplit2] at hx; exact List.mem_append.mp hx :
            x ∈ js.dropLast ∨ x ∈ [js.getLast hjsne]) with h | h
        · exact h
        · rw [List.mem_singleton] at h
          subst h
          exact List.mem_toFinset.mp hkmem
    have hplast : p < js.length - 1 := by
      rcases Nat.lt_or_ge p (js.length - 1) with h | h
      · exact h
      · exfalso
        apply hklast
        have hpeq : p = js.length - 1 := by omega
        have hglgd : js.getLast hjsne = js.getD p 0 := by
          rw [List.getLast_eq_getElem, List.getD_eq_getElem _ _ hpjs]
          congr 1
          omega
        rw [List.mem_toFinset, List.dropLast_eq_take, ← hpeq, hglgd]
        exact hjdup
    have htake_sub : ∀ q, q ≤ js.length - 1 →
        (js.take q).toFinset ⊆ js.dropLast.toFinset := by
      intro q hq
      rw [List.dropLast_eq_take]
      intro x hx
      rw [List.mem_toFinset] at hx
      rw [List.mem_toFinset]
      have h1 : js.take q = (js.take (js.length - 1)).take q := by
        rw [List.take_take, min_eq_left hq]
      rw [h1] at hx
      exact List.take_subset _ _ hx
    have htake_ne : ∀ q, q ≤ js.length - 1 →
        (js.take q).toFinset ≠ Finset.range n := by
      intro q hq heq
      apply hpre2
      apply Finset.Subset.antisymm
      · intro x hx
        rw [List.mem_toFinset] at hx
        exact Finset.mem_range.mpr (hall x (List.dropLast_subset _ hx))
      · rw [← heq]
        exact htake_sub q hq
    have hrunp : ∀ q, 0 < q → q ≤ js.length - 1 →
        runAll (Receiver.new m) ((js.take q).map (dgram data t n)) =
          some (stateOf data n (if 0 ∈ js.take q then t else 0) (js.take q).toFinset,
            (js.take q).map (fun j => (none, decide (j = 0)))) := by
      intro q hq0 hq
      apply runAll_fresh data t n m hndef hlen0 hn65535 ht
      · intro h
        have hlq : (js.take q).length = 0 := by rw [h]; rfl
        rw [List.length_take] at hlq
        omega
      · intro x hx
        exact hall x (List.take_subset _ _ hx)
      · exact htake_ne q hq
    have hltake : ∀ q, l.take q = (js.take q).map (dgram data t n) := by
      intro q
      rw [← hlmap, List.map_take]
    have htfeq : (js.take (p + 1)).toFinset = (js.take p).toFinset := by
      rw [hsucc]
      ext x
      simp only [List.toFinset_append, Finset.mem_union, List.mem_toFinset,
        List.mem_singleton]
      constructor
      · rintro (h | h)
        · exact h
        · subst h
          exact hjdup
      · intro h
        exact Or.inl h
    have hmem0eq : (0 ∈ js.take (p + 1)) = (0 ∈ js.take p) := by
      rw [hsucc]
      simp only [List.mem_append, List.mem_singleton]
      apply propext
      constructor
      · rintro (h | h)
        · exact h
        · rw [← h] at hjdup
          exact hjdup
      · intro h
        exact Or.inl h
    refine ⟨stateOf data n (if 0 ∈ js.take p then t else 0) (js.take p).toFinset,
      (js.take p).map (fun j => (none, decide (j = 0))),
      stateOf data n (if 0 ∈ js.take (p + 1) then t else 0) (js.take (p + 1)).toFinset,
      (js.take (p + 1)).map (fun j => (none, decide (j = 0))), ?_, ?_, ?_⟩
    · rw [hltake p]
      exact hrunp p (by omega) (by omega)
    · rw [hltake (p + 1)]
      exact hrunp (p + 1) (by omega) (by omega)
    · simp only [stateOf]
      rw [htfeq]

/-- C5 witness: the degenerate delivery with no duplicates (empty re-sent
subset) of a single-fragment send. -/
theorem C5_amended_duplicates_witness :
    ∃ rf outs, runAll (Receiver.new 9000) (sentDatagrams [5] 0) = some (rf, outs) ∧
      outs.countP (fun o => o.1.isSome) = 1 ∧
      (∀ o ∈ outs, o.1.isSome = true → o.1 = some [5]) ∧
      (∀ p (hp : p < (sentDatagrams [5] 0).length),
        (sentDatagrams [5] 0).get ⟨p, hp⟩ ∈ (sentDatagrams [5] 0).take p →
        ∃ rp op rq oq,
          runAll (Receiver.new 9000) ((sentDatagrams [5] 0).take p) = some (rp, op) ∧
          runAll (Receiver.new 9000) ((sentDatagrams [5] 0).take (p + 1)) =
            some (rq, oq) ∧
          rq.buffer = rp.buffer) :=
  C5_amended_duplicates [5] 0 9000 (by decide) (by decide) (by decide) []
    (sentDatagrams [5] 0) (List.nil_sublist _)
    (by simp) (by decide)
